import Mathlib

/-!
Verification development for the yosou-bot repository.

Each Python source function relevant to the frozen claims is shallowly
embedded as a Lean definition; Python `float` arithmetic is modelled over `ℚ`
(all arithmetic appearing in the verified statements is exact decimal
arithmetic, where the rational model and IEEE doubles agree), dictionaries
are modelled as association lists or total functions with the source's
defaults, and fallible operations return `Option`.
-/

namespace Yosou

/-- An ordered trifecta ticket `(first, second, third)`, see `formatter.py`. -/
abbrev Triple := ℕ × ℕ × ℕ

/-! ### formatter.py : dedup_buckets -/

/-- The three buckets passed to `dedup_buckets` (`main`/`sub`/`ana`).
The Python input is a dict; only the three keys `main`, `sub`, `ana` are read
(with `[]` default), which this structure models. -/
structure Buckets where
  main : List Triple
  sub : List Triple
  ana : List Triple

/-- One bucket pass of `dedup_buckets`: keep a triple iff it is not in `seen`,
adding kept triples to `seen` (the Python `for tri in ...` loop body). -/
def dedupPass (seen : Finset Triple) : List Triple → List Triple × Finset Triple
  | [] => ([], seen)
  | t :: ts =>
      if t ∈ seen then dedupPass seen ts
      else
        let r := dedupPass (insert t seen) ts
        (t :: r.1, r.2)

/-- `formatter.dedup_buckets`: deduplicate the three buckets, sharing one
`seen` set in priority order main > sub > ana. -/
def dedup_buckets (b : Buckets) : Buckets :=
  let m := dedupPass ∅ b.main
  let s := dedupPass m.2 b.sub
  let a := dedupPass s.2 b.ana
  ⟨m.1, s.1, a.1⟩

theorem dedupPass_mem_out {seen : Finset Triple} {l : List Triple} {t : Triple}
    (h : t ∈ (dedupPass seen l).1) : t ∉ seen := by
  induction l generalizing seen with
  | nil => simp [dedupPass] at h
  | cons x xs ih =>
    by_cases hx : x ∈ seen
    · simp only [dedupPass, if_pos hx] at h
      exact ih h
    · simp only [dedupPass, if_neg hx, List.mem_cons] at h
      rcases h with rfl | h
      · exact hx
      · have := ih h
        intro hmem
        exact this (Finset.mem_insert_of_mem hmem)

theorem dedupPass_seen_mono {seen : Finset Triple} {l : List Triple} {t : Triple}
    (h : t ∈ seen) : t ∈ (dedupPass seen l).2 := by
  induction l generalizing seen with
  | nil => simpa [dedupPass] using h
  | cons x xs ih =>
    by_cases hx : x ∈ seen
    · simp only [dedupPass, if_pos hx]
      exact ih h
    · simp only [dedupPass, if_neg hx]
      exact ih (Finset.mem_insert_of_mem h)

theorem dedupPass_out_sub_seen {seen : Finset Triple} {l : List Triple} {t : Triple}
    (h : t ∈ (dedupPass seen l).1) : t ∈ (dedupPass seen l).2 := by
  induction l generalizing seen with
  | nil => simp [dedupPass] at h
  | cons x xs ih =>
    by_cases hx : x ∈ seen
    · simp only [dedupPass, if_pos hx] at h ⊢
      exact ih h
    · simp only [dedupPass, if_neg hx, List.mem_cons] at h ⊢
      rcases h with rfl | h
      · exact dedupPass_seen_mono (Finset.mem_insert_self t _)
      · exact ih h

theorem dedupPass_nodup (seen : Finset Triple) (l : List Triple) :
    (dedupPass seen l).1.Nodup := by
  induction l generalizing seen with
  | nil => simp [dedupPass]
  | cons x xs ih =>
    by_cases hx : x ∈ seen
    · simp only [dedupPass, if_pos hx]
      exact ih seen
    · simp only [dedupPass, if_neg hx, List.nodup_cons]
      refine ⟨fun hmem => ?_, ih _⟩
      exact dedupPass_mem_out hmem (Finset.mem_insert_self x seen)

/-- C2: after `dedup_buckets`, each bucket is duplicate-free, the three
buckets are pairwise disjoint, and a triple kept in an earlier-priority
bucket (main > sub > ana) never reappears in a later one. -/
theorem dedup_buckets_disjoint (b : Buckets) :
    (dedup_buckets b).main.Nodup ∧ (dedup_buckets b).sub.Nodup ∧
      (dedup_buckets b).ana.Nodup ∧
      (dedup_buckets b).main.Disjoint (dedup_buckets b).sub ∧
      (dedup_buckets b).main.Disjoint (dedup_buckets b).ana ∧
      (dedup_buckets b).sub.Disjoint (dedup_buckets b).ana := by
  refine ⟨dedupPass_nodup _ _, dedupPass_nodup _ _, dedupPass_nodup _ _, ?_, ?_, ?_⟩
  · intro t hm hs
    exact dedupPass_mem_out hs (dedupPass_out_sub_seen hm)
  · intro t hm ha
    exact dedupPass_mem_out ha (dedupPass_seen_mono (dedupPass_out_sub_seen hm))
  · intro t hs ha
    exact dedupPass_mem_out ha (dedupPass_out_sub_seen hs)

/-! ### formatter.py : _group_by_two_fixed / compress_bucket -/

/-- Order-preserving removal of duplicates keeping the first occurrence
(the `seen_s` loop at the end of `_group_by_two_fixed`). -/
def dedupKeepFirst {α : Type} [DecidableEq α] : List α → List α
  | [] => []
  | a :: as => a :: dedupKeepFirst (as.filter (fun b => decide (b ≠ a)))
termination_by l => l.length
decreasing_by
  simp only [List.length_cons]
  exact Nat.lt_succ_of_le (List.length_filter_le _ _)

theorem mem_dedupKeepFirst {α : Type} [DecidableEq α] {l : List α} {a : α} :
    a ∈ dedupKeepFirst l ↔ a ∈ l := by
  induction l using dedupKeepFirst.induct with
  | case1 => simp [dedupKeepFirst]
  | case2 x xs ih =>
    rw [dedupKeepFirst]
    by_cases hax : a = x
    · subst hax; simp
    · simp only [List.mem_cons, ih, List.mem_filter, decide_eq_true_eq]
      constructor
      · rintro (rfl | ⟨h, _⟩)
        · exact .inl rfl
        · exact .inr h
      · rintro (rfl | h)
        · exact .inl rfl
        · exact .inr ⟨h, hax⟩

/-- The `(a, b)` key of a triple (the `by_ab` grouping in `_group_by_two_fixed`). -/
def triAB (t : Triple) : ℕ × ℕ := (t.1, t.2.1)

/-- The `(a, c)` key of a triple (the `by_ac` grouping). -/
def triAC (t : Triple) : ℕ × ℕ := (t.1, t.2.2)

/-- The `(b, c)` key of a triple (the `by_bc` grouping). -/
def triBC (t : Triple) : ℕ × ℕ := (t.2.1, t.2.2)

/-- `by_ab[key]`: the set of third lanes of triples whose first two lanes form `key`. -/
def valsAB (tris : List Triple) (k : ℕ × ℕ) : Finset ℕ :=
  ((tris.filter (fun t => decide (triAB t = k))).map (fun t => t.2.2)).toFinset

/-- `by_ac[key]`: the set of second lanes of triples whose outer lanes form `key`. -/
def valsAC (tris : List Triple) (k : ℕ × ℕ) : Finset ℕ :=
  ((tris.filter (fun t => decide (triAC t = k))).map (fun t => t.2.1)).toFinset

/-- `by_bc[key]`: the set of first lanes of triples whose last two lanes form `key`. -/
def valsBC (tris : List Triple) (k : ℕ × ℕ) : Finset ℕ :=
  ((tris.filter (fun t => decide (triBC t = k))).map (fun t => t.1)).toFinset

theorem mem_valsAB {tris : List Triple} {a b c : ℕ} :
    c ∈ valsAB tris (a, b) ↔ (a, b, c) ∈ tris := by
  simp only [valsAB, List.mem_toFinset, List.mem_map, List.mem_filter, decide_eq_true_eq]
  constructor
  · rintro ⟨⟨x, y, z⟩, ⟨hmem, hk⟩, rfl⟩
    simp only [triAB, Prod.mk.injEq] at hk
    obtain ⟨rfl, rfl⟩ := hk
    exact hmem
  · intro hmem
    exact ⟨(a, b, c), ⟨hmem, rfl⟩, rfl⟩

theorem mem_valsAC {tris : List Triple} {a b c : ℕ} :
    b ∈ valsAC tris (a, c) ↔ (a, b, c) ∈ tris := by
  simp only [valsAC, List.mem_toFinset, List.mem_map, List.mem_filter, decide_eq_true_eq]
  constructor
  · rintro ⟨⟨x, y, z⟩, ⟨hmem, hk⟩, rfl⟩
    simp only [triAC, Prod.mk.injEq] at hk
    obtain ⟨rfl, rfl⟩ := hk
    exact hmem
  · intro hmem
    exact ⟨(a, b, c), ⟨hmem, rfl⟩, rfl⟩

theorem mem_valsBC {tris : List Triple} {a b c : ℕ} :
    a ∈ valsBC tris (b, c) ↔ (a, b, c) ∈ tris := by
  simp only [valsBC, List.mem_toFinset, List.mem_map, List.mem_filter, decide_eq_true_eq]
  constructor
  · rintro ⟨⟨x, y, z⟩, ⟨hmem, hk⟩, rfl⟩
    simp only [triBC, Prod.mk.injEq] at hk
    obtain ⟨rfl, rfl⟩ := hk
    exact hmem
  · intro hmem
    exact ⟨(a, b, c), ⟨hmem, rfl⟩, rfl⟩

/-- `"".join(map(str, sorted(vals)))` restricted to a list of naturals. -/
def concatReprs : List ℕ → String
  | [] => ""
  | v :: vs => Nat.repr v ++ concatReprs vs

/-- The digit string of a value set, sorted ascending (the `vals_str` of the source). -/
def renderVals (vals : Finset ℕ) : String :=
  concatReprs (vals.sort (· ≤ ·))

/-- `pat_ab`: `f"{a}-{b}-{vals}"`. -/
def renderAB (k : ℕ × ℕ) (vals : Finset ℕ) : String :=
  Nat.repr k.1 ++ "-" ++ Nat.repr k.2 ++ "-" ++ renderVals vals

/-- `pat_ac`: `f"{a}-{vals}-{c}"`. -/
def renderAC (k : ℕ × ℕ) (vals : Finset ℕ) : String :=
  Nat.repr k.1 ++ "-" ++ renderVals vals ++ "-" ++ Nat.repr k.2

/-- `pat_bc`: `f"{vals}-{b}-{c}"`. -/
def renderBC (k : ℕ × ℕ) (vals : Finset ℕ) : String :=
  renderVals vals ++ "-" ++ Nat.repr k.1 ++ "-" ++ Nat.repr k.2

/-- `formatter._tri_str`: `f"{a}-{b}-{c}"`. -/
def _tri_str (t : Triple) : String :=
  Nat.repr t.1 ++ "-" ++ Nat.repr t.2.1 ++ "-" ++ Nat.repr t.2.2

/-- The grouped strings emitted from `by_ab` (keys in first-occurrence order,
only keys with at least two values, as in `compress(by_ab, pat_ab)`). -/
def groupsAB (tris : List Triple) : List String :=
  ((dedupKeepFirst (tris.map triAB)).filter (fun k => decide (2 ≤ (valsAB tris k).card))).map
    (fun k => renderAB k (valsAB tris k))

/-- The grouped strings emitted from `by_ac`. -/
def groupsAC (tris : List Triple) : List String :=
  ((dedupKeepFirst (tris.map triAC)).filter (fun k => decide (2 ≤ (valsAC tris k).card))).map
    (fun k => renderAC k (valsAC tris k))

/-- The grouped strings emitted from `by_bc`. -/
def groupsBC (tris : List Triple) : List String :=
  ((dedupKeepFirst (tris.map triBC)).filter (fun k => decide (2 ≤ (valsBC tris k).card))).map
    (fun k => renderBC k (valsBC tris k))

/-- Membership of a triple in the source's `used` set: `used` collects exactly
the triples of every emitted group, i.e. the triples one of whose three keys
has at least two values. -/
def usedTri (tris : List Triple) (t : Triple) : Bool :=
  decide (2 ≤ (valsAB tris (triAB t)).card) || decide (2 ≤ (valsAC tris (triAC t)).card) ||
    decide (2 ≤ (valsBC tris (triBC t)).card)

/-- `formatter._group_by_two_fixed`: grouped strings from the three key maps,
then the unused triples verbatim, then order-preserving string dedup. -/
def _group_by_two_fixed (tris : List Triple) : List String :=
  dedupKeepFirst (groupsAB tris ++ groupsAC tris ++ groupsBC tris ++
    (tris.filter (fun t => !usedTri tris t)).map _tri_str)

/-- `formatter.compress_bucket`. -/
def compress_bucket (tris : List Triple) : List String :=
  if tris = [] then [] else _group_by_two_fixed tris

/-! Expansion semantics of the grouped notation: a string `"p1-p2-p3"` denotes
the set of triples obtained by choosing one digit from each hyphen-separated
part (so `"2-5-134"` denotes `{2} × {5} × {1,3,4}`). -/

/-- Split a character list at hyphens. -/
def splitDash : List Char → List (List Char)
  | [] => [[]]
  | c :: cs =>
      if c = '-' then [] :: splitDash cs
      else
        match splitDash cs with
        | [] => [[c]]
        | p :: ps => (c :: p) :: ps

/-- The set of lane digits denoted by one part of a grouped string. -/
def charDigitSet (p : List Char) : Finset ℕ :=
  (p.map (fun c => c.toNat - 48)).toFinset

/-- The set of triples denoted by one grouped notation string. -/
def expandStr (s : String) : Finset Triple :=
  match splitDash s.data with
  | [pa, pb, pc] => (charDigitSet pa) ×ˢ (charDigitSet pb) ×ˢ (charDigitSet pc)
  | _ => ∅

/-- The set of triples denoted by a list of grouped strings. -/
def expandAll (l : List String) : Finset Triple :=
  l.foldr (fun s acc => expandStr s ∪ acc) ∅

theorem mem_expandAll {l : List String} {t : Triple} :
    t ∈ expandAll l ↔ ∃ s ∈ l, t ∈ expandStr s := by
  induction l with
  | nil => simp [expandAll]
  | cons x xs ih =>
    simp only [expandAll, List.foldr_cons, Finset.mem_union, List.mem_cons]
    rw [show xs.foldr (fun s acc => expandStr s ∪ acc) ∅ = expandAll xs from rfl] at *
    constructor
    · rintro (h | h)
      · exact ⟨x, .inl rfl, h⟩
      · obtain ⟨s, hs, hts⟩ := ih.mp h
        exact ⟨s, .inr hs, hts⟩
    · rintro ⟨s, (rfl | hs), hts⟩
      · exact .inl hts
      · exact .inr (ih.mpr ⟨s, hs, hts⟩)

theorem splitDash_no {x : List Char} (h : '-' ∉ x) : splitDash x = [x] := by
  induction x with
  | nil => rfl
  | cons c cs ih =>
    have hc : c ≠ '-' := fun hc => h (hc ▸ List.mem_cons_self _ _)
    have h' : '-' ∉ cs := fun hm => h (List.mem_cons_of_mem _ hm)
    simp only [splitDash, if_neg (fun hcc => hc hcc), ih h']

theorem splitDash_app {x r : List Char} (h : '-' ∉ x) :
    splitDash (x ++ '-' :: r) = x :: splitDash r := by
  induction x with
  | nil =>
    simp [splitDash]
  | cons c cs ih =>
    have hc : c ≠ '-' := fun hc => h (hc ▸ List.mem_cons_self _ _)
    have h' : '-' ∉ cs := fun hm => h (List.mem_cons_of_mem _ hm)
    simp only [List.cons_append, splitDash, if_neg (fun hcc => hc hcc), List.append_eq, ih h']

theorem repr_digit {n : ℕ} (h : n ≤ 9) : (Nat.repr n).data = [Char.ofNat (48 + n)] := by
  interval_cases n <;> rfl

theorem charOfNat_digit_toNat {n : ℕ} (h : n ≤ 9) : (Char.ofNat (48 + n)).toNat - 48 = n := by
  interval_cases n <;> decide

theorem charOfNat_digit_ne_dash {n : ℕ} (h : n ≤ 9) : Char.ofNat (48 + n) ≠ '-' := by
  interval_cases n <;> decide

theorem dash_not_mem_repr {n : ℕ} (h : n ≤ 9) : '-' ∉ (Nat.repr n).data := by
  rw [repr_digit h]
  intro hm
  exact charOfNat_digit_ne_dash h (List.mem_singleton.mp hm).symm

theorem concatReprs_data {l : List ℕ} (h : ∀ v ∈ l, v ≤ 9) :
    (concatReprs l).data = l.map (fun v => Char.ofNat (48 + v)) := by
  induction l with
  | nil => rfl
  | cons v vs ih =>
    simp only [concatReprs, List.map_cons, String.data_append,
      repr_digit (h v (List.mem_cons_self _ _)),
      ih (fun x hx => h x (List.mem_cons_of_mem _ hx))]
    rfl

theorem renderVals_data {vals : Finset ℕ} (h : ∀ v ∈ vals, v ≤ 9) :
    (renderVals vals).data = (vals.sort (· ≤ ·)).map (fun v => Char.ofNat (48 + v)) :=
  concatReprs_data (fun v hv => h v (Finset.mem_sort _ |>.mp hv))

theorem dash_not_mem_renderVals {vals : Finset ℕ} (h : ∀ v ∈ vals, v ≤ 9) :
    '-' ∉ (renderVals vals).data := by
  rw [renderVals_data h]
  intro hm
  obtain ⟨v, hv, heq⟩ := List.mem_map.mp hm
  exact charOfNat_digit_ne_dash (h v (Finset.mem_sort _ |>.mp hv)) heq

theorem charDigitSet_renderVals {vals : Finset ℕ} (h : ∀ v ∈ vals, v ≤ 9) :
    charDigitSet (renderVals vals).data = vals := by
  rw [charDigitSet, renderVals_data h, List.map_map]
  have hm : (vals.sort (· ≤ ·)).map ((fun c : Char => c.toNat - 48) ∘
      fun v => Char.ofNat (48 + v)) = (vals.sort (· ≤ ·)).map id := by
    apply List.map_congr_left
    intro v hv
    exact charOfNat_digit_toNat (h v (Finset.mem_sort _ |>.mp hv))
  rw [hm, List.map_id]
  exact Finset.sort_toFinset _ _

theorem charDigitSet_repr {n : ℕ} (h : n ≤ 9) :
    charDigitSet (Nat.repr n).data = {n} := by
  rw [repr_digit h]
  simp [charDigitSet, charOfNat_digit_toNat h]

theorem mem_prod3 {v1 v2 v3 : Finset ℕ} {t : Triple} :
    t ∈ v1 ×ˢ v2 ×ˢ v3 ↔ t.1 ∈ v1 ∧ t.2.1 ∈ v2 ∧ t.2.2 ∈ v3 := by
  simp [Finset.mem_product]

theorem expandStr_renderAB {a b : ℕ} {vals : Finset ℕ} (ha : a ≤ 9) (hb : b ≤ 9)
    (hv : ∀ v ∈ vals, v ≤ 9) :
    expandStr (renderAB (a, b) vals) = {a} ×ˢ ({b} : Finset ℕ) ×ˢ vals := by
  have hdata : (renderAB (a, b) vals).data =
      (Nat.repr a).data ++ '-' :: ((Nat.repr b).data ++ '-' :: (renderVals vals).data) := by
    simp [renderAB, String.data_append, List.append_assoc]
  have hred : expandStr (renderAB (a, b) vals) =
      charDigitSet (Nat.repr a).data ×ˢ charDigitSet (Nat.repr b).data ×ˢ
        charDigitSet (renderVals vals).data := by
    rw [expandStr, hdata, splitDash_app (dash_not_mem_repr ha),
      splitDash_app (dash_not_mem_repr hb), splitDash_no (dash_not_mem_renderVals hv)]
  rw [hred, charDigitSet_repr ha, charDigitSet_repr hb, charDigitSet_renderVals hv]

theorem expandStr_renderAC {a c : ℕ} {vals : Finset ℕ} (ha : a ≤ 9) (hc : c ≤ 9)
    (hv : ∀ v ∈ vals, v ≤ 9) :
    expandStr (renderAC (a, c) vals) = {a} ×ˢ vals ×ˢ ({c} : Finset ℕ) := by
  have hdata : (renderAC (a, c) vals).data =
      (Nat.repr a).data ++ '-' :: ((renderVals vals).data ++ '-' :: (Nat.repr c).data) := by
    simp [renderAC, String.data_append, List.append_assoc]
  have hred : expandStr (renderAC (a, c) vals) =
      charDigitSet (Nat.repr a).data ×ˢ charDigitSet (renderVals vals).data ×ˢ
        charDigitSet (Nat.repr c).data := by
    rw [expandStr, hdata, splitDash_app (dash_not_mem_repr ha),
      splitDash_app (dash_not_mem_renderVals hv), splitDash_no (dash_not_mem_repr hc)]
  rw [hred, charDigitSet_repr ha, charDigitSet_repr hc, charDigitSet_renderVals hv]

theorem expandStr_renderBC {b c : ℕ} {vals : Finset ℕ} (hb : b ≤ 9) (hc : c ≤ 9)
    (hv : ∀ v ∈ vals, v ≤ 9) :
    expandStr (renderBC (b, c) vals) = vals ×ˢ ({b} : Finset ℕ) ×ˢ ({c} : Finset ℕ) := by
  have hdata : (renderBC (b, c) vals).data =
      (renderVals vals).data ++ '-' :: ((Nat.repr b).data ++ '-' :: (Nat.repr c).data) := by
    simp [renderBC, String.data_append, List.append_assoc]
  have hred : expandStr (renderBC (b, c) vals) =
      charDigitSet (renderVals vals).data ×ˢ charDigitSet (Nat.repr b).data ×ˢ
        charDigitSet (Nat.repr c).data := by
    rw [expandStr, hdata, splitDash_app (dash_not_mem_renderVals hv),
      splitDash_app (dash_not_mem_repr hb), splitDash_no (dash_not_mem_repr hc)]
  rw [hred, charDigitSet_repr hb, charDigitSet_repr hc, charDigitSet_renderVals hv]

theorem expandStr_triStr {t : Triple} (h1 : t.1 ≤ 9) (h2 : t.2.1 ≤ 9) (h3 : t.2.2 ≤ 9) :
    expandStr (_tri_str t) = {t} := by
  have hdata : (_tri_str t).data =
      (Nat.repr t.1).data ++ '-' :: ((Nat.repr t.2.1).data ++ '-' :: (Nat.repr t.2.2).data) := by
    simp [_tri_str, String.data_append, List.append_assoc]
  have hred : expandStr (_tri_str t) =
      charDigitSet (Nat.repr t.1).data ×ˢ charDigitSet (Nat.repr t.2.1).data ×ˢ
        charDigitSet (Nat.repr t.2.2).data := by
    rw [expandStr, hdata, splitDash_app (dash_not_mem_repr h1),
      splitDash_app (dash_not_mem_repr h2), splitDash_no (dash_not_mem_repr h3)]
  rw [hred, charDigitSet_repr h1, charDigitSet_repr h2, charDigitSet_repr h3]
  ext u
  simp only [mem_prod3, Finset.mem_singleton]
  constructor
  · rintro ⟨e1, e2, e3⟩
    exact Prod.ext e1 (Prod.ext e2 e3)
  · rintro rfl
    exact ⟨rfl, rfl, rfl⟩

/-- C1: ticket compression is lossless — for every list of triples of lanes
`1..6`, expanding every grouped notation string produced by `compress_bucket`
yields (as a set) exactly the input triples. -/
theorem compress_bucket_lossless (tris : List Triple)
    (h : ∀ t ∈ tris, t.1 ∈ Finset.Icc 1 6 ∧ t.2.1 ∈ Finset.Icc 1 6 ∧ t.2.2 ∈ Finset.Icc 1 6) :
    expandAll (compress_bucket tris) = tris.toFinset := by
  have h9 : ∀ t ∈ tris, t.1 ≤ 9 ∧ t.2.1 ≤ 9 ∧ t.2.2 ≤ 9 := by
    intro t ht
    obtain ⟨h1, h2, h3⟩ := h t ht
    rw [Finset.mem_Icc] at h1 h2 h3
    exact ⟨h1.2.trans (by norm_num), h2.2.trans (by norm_num), h3.2.trans (by norm_num)⟩
  by_cases hnil : tris = []
  · subst hnil
    rfl
  rw [compress_bucket, if_neg hnil]
  ext u
  rw [mem_expandAll, List.mem_toFinset]
  constructor
  · rintro ⟨s, hs, hu⟩
    rw [_group_by_two_fixed, mem_dedupKeepFirst] at hs
    simp only [List.mem_append] at hs
    rcases hs with ((hAB | hAC) | hBC) | hSingle
    · obtain ⟨⟨a, b⟩, hk, rfl⟩ := List.mem_map.mp hAB
      obtain ⟨hkmem, _⟩ := List.mem_filter.mp hk
      obtain ⟨w, hw, hwk⟩ := List.mem_map.mp (mem_dedupKeepFirst.mp hkmem)
      have ha : a ≤ 9 := by
        have := (h9 w hw).1
        simp only [triAB, Prod.mk.injEq] at hwk
        omega
      have hb : b ≤ 9 := by
        have := (h9 w hw).2.1
        simp only [triAB, Prod.mk.injEq] at hwk
        omega
      have hvb : ∀ v ∈ valsAB tris (a, b), v ≤ 9 := fun v hv =>
        (h9 _ (mem_valsAB.mp hv)).2.2
      rw [expandStr_renderAB ha hb hvb, mem_prod3] at hu
      obtain ⟨e1, e2, e3⟩ := hu
      rw [Finset.mem_singleton] at e1 e2
      have : (a, b, u.2.2) ∈ tris := mem_valsAB.mp e3
      rwa [show (a, b, u.2.2) = u from by
        rw [← e1, ← e2]] at this
    · obtain ⟨⟨a, c⟩, hk, rfl⟩ := List.mem_map.mp hAC
      obtain ⟨hkmem, _⟩ := List.mem_filter.mp hk
      obtain ⟨w, hw, hwk⟩ := List.mem_map.mp (mem_dedupKeepFirst.mp hkmem)
      have ha : a ≤ 9 := by
        have := (h9 w hw).1
        simp only [triAC, Prod.mk.injEq] at hwk
        omega
      have hc : c ≤ 9 := by
        have := (h9 w hw).2.2
        simp only [triAC, Prod.mk.injEq] at hwk
        omega
      have hvb : ∀ v ∈ valsAC tris (a, c), v ≤ 9 := fun v hv =>
        (h9 _ (mem_valsAC.mp hv)).2.1
      rw [expandStr_renderAC ha hc hvb, mem_prod3] at hu
      obtain ⟨e1, e2, e3⟩ := hu
      rw [Finset.mem_singleton] at e1 e3
      have : (a, u.2.1, c) ∈ tris := mem_valsAC.mp e2
      rwa [show (a, u.2.1, c) = u from by
        rw [← e1, ← e3]] at this
    · obtain ⟨⟨b, c⟩, hk, rfl⟩ := List.mem_map.mp hBC
      obtain ⟨hkmem, _⟩ := List.mem_filter.mp hk
      obtain ⟨w, hw, hwk⟩ := List.mem_map.mp (mem_dedupKeepFirst.mp hkmem)
      have hb : b ≤ 9 := by
        have := (h9 w hw).2.1
        simp only [triBC, Prod.mk.injEq] at hwk
        omega
      have hc : c ≤ 9 := by
        have := (h9 w hw).2.2
        simp only [triBC, Prod.mk.injEq] at hwk
        omega
      have hvb : ∀ v ∈ valsBC tris (b, c), v ≤ 9 := fun v hv =>
        (h9 _ (mem_valsBC.mp hv)).1
      rw [expandStr_renderBC hb hc hvb, mem_prod3] at hu
      obtain ⟨e1, e2, e3⟩ := hu
      rw [Finset.mem_singleton] at e2 e3
      have : (u.1, b, c) ∈ tris := mem_valsBC.mp e1
      rwa [show (u.1, b, c) = u from by
        rw [← e2, ← e3]] at this
    · obtain ⟨w, hw, rfl⟩ := List.mem_map.mp hSingle
      have hwt : w ∈ tris := (List.mem_filter.mp hw).1
      obtain ⟨hw1, hw2, hw3⟩ := h9 w hwt
      rw [expandStr_triStr hw1 hw2 hw3, Finset.mem_singleton] at hu
      rwa [hu]
  · intro hu
    obtain ⟨u1, u2, u3⟩ := u
    obtain ⟨hb1, hb2, hb3⟩ := h9 _ hu
    rw [_group_by_two_fixed]
    by_cases c1 : 2 ≤ (valsAB tris (u1, u2)).card
    · refine ⟨renderAB (u1, u2) (valsAB tris (u1, u2)), ?_, ?_⟩
      · rw [mem_dedupKeepFirst]
        simp only [List.mem_append]
        refine .inl (.inl (.inl (List.mem_map.mpr ⟨(u1, u2), ?_, rfl⟩)))
        rw [List.mem_filter]
        refine ⟨mem_dedupKeepFirst.mpr (List.mem_map.mpr ⟨(u1, u2, u3), hu, rfl⟩), ?_⟩
        simpa using c1
      · rw [expandStr_renderAB hb1 hb2 (fun v hv => (h9 _ (mem_valsAB.mp hv)).2.2), mem_prod3]
        exact ⟨Finset.mem_singleton_self _, Finset.mem_singleton_self _, mem_valsAB.mpr hu⟩
    by_cases c2 : 2 ≤ (valsAC tris (u1, u3)).card
    · refine ⟨renderAC (u1, u3) (valsAC tris (u1, u3)), ?_, ?_⟩
      · rw [mem_dedupKeepFirst]
        simp only [List.mem_append]
        refine .inl (.inl (.inr (List.mem_map.mpr ⟨(u1, u3), ?_, rfl⟩)))
        rw [List.mem_filter]
        refine ⟨mem_dedupKeepFirst.mpr (List.mem_map.mpr ⟨(u1, u2, u3), hu, rfl⟩), ?_⟩
        simpa using c2
      · rw [expandStr_renderAC hb1 hb3 (fun v hv => (h9 _ (mem_valsAC.mp hv)).2.1), mem_prod3]
        exact ⟨Finset.mem_singleton_self _, mem_valsAC.mpr hu, Finset.mem_singleton_self _⟩
    by_cases c3 : 2 ≤ (valsBC tris (u2, u3)).card
    · refine ⟨renderBC (u2, u3) (valsBC tris (u2, u3)), ?_, ?_⟩
      · rw [mem_dedupKeepFirst]
        simp only [List.mem_append]
        refine .inl (.inr (List.mem_map.mpr ⟨(u2, u3), ?_, rfl⟩))
        rw [List.mem_filter]
        refine ⟨mem_dedupKeepFirst.mpr (List.mem_map.mpr ⟨(u1, u2, u3), hu, rfl⟩), ?_⟩
        simpa using c3
      · rw [expandStr_renderBC hb2 hb3 (fun v hv => (h9 _ (mem_valsBC.mp hv)).1), mem_prod3]
        exact ⟨mem_valsBC.mpr hu, Finset.mem_singleton_self _, Finset.mem_singleton_self _⟩
    refine ⟨_tri_str (u1, u2, u3), ?_, ?_⟩
    · rw [mem_dedupKeepFirst]
      simp only [List.mem_append]
      refine .inr (List.mem_map.mpr ⟨(u1, u2, u3), ?_, rfl⟩)
      rw [List.mem_filter]
      refine ⟨hu, ?_⟩
      simp only [usedTri, triAB, triAC, triBC, Bool.not_eq_true', Bool.or_eq_false_iff,
        decide_eq_false_iff_not]
      exact ⟨⟨c1, c2⟩, c3⟩
    · rw [expandStr_triStr hb1 hb2 hb3]
      exact Finset.mem_singleton_self _

/-- Witness for C1 at a concrete bucket: `[(2,5,1), (2,5,3), (2,5,4)]`
compresses and expands back to itself. -/
theorem compress_bucket_lossless_witness :
    (∀ t ∈ [((2 : ℕ), (5 : ℕ), (1 : ℕ)), (2, 5, 3), (2, 5, 4)],
        t.1 ∈ Finset.Icc 1 6 ∧ t.2.1 ∈ Finset.Icc 1 6 ∧ t.2.2 ∈ Finset.Icc 1 6) ∧
      expandAll (compress_bucket [((2 : ℕ), (5 : ℕ), (1 : ℕ)), (2, 5, 3), (2, 5, 4)]) =
        ([((2 : ℕ), (5 : ℕ), (1 : ℕ)), (2, 5, 3), (2, 5, 4)] : List Triple).toFinset :=
  ⟨by decide, compress_bucket_lossless _ (by decide)⟩

/-! ### Python `sorted(..., key=..., reverse=True)` -/

/-- Insert `x` behind every already-placed element whose key is not smaller:
one step of a stable descending sort. -/
def insertDesc {α : Type} (key : α → ℚ) (x : α) : List α → List α
  | [] => [x]
  | y :: ys => if key y < key x then x :: y :: ys else y :: insertDesc key x ys

/-- Python `sorted(l, key=key, reverse=True)`: stable, descending by `key`. -/
def stableSortDesc {α : Type} (key : α → ℚ) (l : List α) : List α :=
  l.foldl (fun acc x => insertDesc key x acc) []

/-! ### app.py : score_lane / wind_bias / build_cards -/

namespace App

/-- One row of the `fetch_shutuba` result (`rows[lane]` dict). Numeric fields
hold the parsed value of the scraped string (`_to_f` supplies a `0.0` default
when the key is absent, modelled by `Option.getD 0`); `cls` is
`row.get("class", "")`. -/
structure Row where
  motor2r : Option ℚ := none
  boat2r : Option ℚ := none
  zwin : Option ℚ := none
  twin : Option ℚ := none
  avgst : Option ℚ := none
  cls : String := ""

/-- The `fetch_beforeinfo` result consumed by scoring: per-lane exhibition
time, start timing and tilt (`none` when the lane is absent from the dict;
present values are the parsed numbers, whose scraped strings are always
non-empty hence truthy), plus the weather sub-dict with the source's
defaults. -/
structure Before where
  ex : ℕ → Option ℚ := fun _ => none
  st : ℕ → Option ℚ := fun _ => none
  tilt : ℕ → Option ℚ := fun _ => none
  windDir : String := ""
  windM : Option ℚ := none
  waveCm : Option ℚ := none

/-- Whether `needle` occurs as a contiguous sublist of `hay`
(the Python `in` test on strings). -/
def listHasInfix {α : Type} [DecidableEq α] : List α → List α → Bool
  | needle, [] => decide (needle = [])
  | needle, c :: t => needle.isPrefixOf (c :: t) || listHasInfix needle t

/-- Python `needle in hay` for strings. -/
def strContains (hay needle : String) : Bool := listHasInfix needle.data hay.data

/-- Python `s.startswith(pre)` (over the character lists, so that concrete
instances reduce in the kernel). -/
def strStarts (s pre : String) : Bool := pre.data.isPrefixOf s.data

/-- `app.wind_bias`. -/
def wind_bias (before : Before) (lane : ℕ) : ℚ :=
  let wdir := before.windDir
  let w := before.windM.getD 0
  let wave := before.waveCm.getD 0
  let b : ℚ :=
    if strStarts wdir ("向かい") then (if lane ≤ 3 then 2 else 0)
    else if strStarts wdir ("追い") then (if 4 ≤ lane then 2 else 0)
    else if strContains wdir ("横風") then (if 2 ≤ lane ∧ lane ≤ 5 then 1 else 0)
    else 0
  b + (if (5 ≤ w ∨ 5 ≤ wave) ∧ 4 ≤ lane then 3 / 2 else 0)

/-- The positional base `{1:60, 2:48, 3:44, 4:40, 5:34, 6:30}[lane]`
(the source indexes the dict directly and is only called with lanes 1..6). -/
def baseScore (lane : ℕ) : ℚ :=
  match lane with
  | 1 => 60
  | 2 => 48
  | 3 => 44
  | 4 => 40
  | 5 => 34
  | 6 => 30
  | _ => 0

/-- Python `max(0, x)` on rationals (written as an `if` so that concrete
instances reduce in the kernel). -/
def pyMax0 (x : ℚ) : ℚ := if x < 0 then 0 else x

/-- `app.score_lane`. -/
def score_lane (lane : ℕ) (sh : ℕ → Row) (before : Before) : ℚ :=
  let row := sh lane
  let ex := before.ex lane
  let st := before.st lane
  let tilt := before.tilt lane
  let b0 := baseScore lane
  let b1 := b0 + (match ex with
    | some e => pyMax0 ((66 / 10 - e) * 20)
    | none => 0)
  let b2 := b1 + (match st with
    | some s => pyMax0 ((15 / 100 - s) * 200)
    | none => 0)
  let b3 := b2 + (row.motor2r.getD 0) * (6 / 10) + (row.boat2r.getD 0) * (3 / 10) +
    (row.zwin.getD 0) * (4 / 10) + (row.twin.getD 0) * (2 / 10)
  let b4 := b3 - pyMax0 ((row.avgst.getD 0) - 16 / 100) * 300
  let b5 := b4 + (if row.cls = "A1" then 8
    else if row.cls = "A2" then 4
    else if row.cls = "B1" then -2
    else -5)
  let b6 := b5 + (match tilt with
    | some t => t * (if 4 ≤ lane then 2 else 1 / 2)
    | none => 0)
  b6 + wind_bias before lane

/-- Append items from `items` to `acc` while the accumulated length stays
below `limit` (the `if len(...) >= limit: break` pattern of `build_cards`). -/
def appendUpTo (limit : ℕ) (acc : List Triple) : List Triple → List Triple
  | [] => acc
  | t :: ts => if limit ≤ acc.length then acc else appendUpTo limit (acc ++ [t]) ts

/-- `app.build_cards`, restricted to the three ticket buckets
`(mains[:10], subs[:12], holes[:6])` it returns; the odds-dependent
`values`/`stakes` outputs and the commentary `memo` are not modelled (they do
not feed the buckets). -/
def build_cards (sh : ℕ → Row) (before : Before) :
    List Triple × List Triple × List Triple :=
  let order := stableSortDesc (fun k => score_lane k sh before) [1, 2, 3, 4, 5, 6]
  let axis := order.headD 0
  let cand := (order.drop 1).take 3
  let others := (order.drop 4).take 2
  let mains0 := cand.flatMap (fun b =>
    (cand.filter (fun c => decide (c ≠ b))).map (fun c => (axis, b, c)))
  let mains := appendUpTo 10 mains0
    (cand.flatMap (fun b => others.map (fun c => (axis, b, c))))
  let subs0 : List Triple := if axis ≠ 4 then [(axis, 4, order.headD 0)] else []
  let subs := appendUpTo 12 subs0
    (((cand ++ others).filter (fun a => decide (a ≠ axis))).flatMap (fun a =>
      ((cand ++ others).filter (fun c => decide (c ≠ axis ∧ c ≠ a))).map
        (fun c => (a, axis, c))))
  let dash := (order.filter (fun i => decide (4 ≤ i))).take 3
  let holes := appendUpTo 6 []
    (dash.flatMap (fun a =>
      ((order.take 3).filter (fun b => decide (b ≠ a))).map (fun b => (a, b, axis))))
  (mains.take 10, subs.take 12, holes.take 6)

/-- C3 (code bug): with every metric missing, `build_cards` ranks the lanes
`[1,2,3,4,5,6]`; its cover bucket then opens with the ticket `(1,4,1)` and
its longshot bucket with `(4,1,1)` — tickets whose slots repeat a lane,
contradicting the pairwise-distinct-lanes invariant of a trifecta. -/
theorem build_cards_repeats_a_lane :
    ((1, 4, 1) ∈ (build_cards (fun _ => {}) {}).2.1 ∧
        (4, 1, 1) ∈ (build_cards (fun _ => {}) {}).2.2) ∧
      ¬ (∀ t ∈ (build_cards (fun _ => {}) {}).2.1,
          t.1 ≠ t.2.1 ∧ t.1 ≠ t.2.2 ∧ t.2.1 ≠ t.2.2) := by
  have horder : stableSortDesc (fun k => score_lane k (fun _ => {}) {}) [1, 2, 3, 4, 5, 6]
      = [1, 2, 3, 4, 5, 6] := by
    norm_num [stableSortDesc, insertDesc, score_lane, baseScore, wind_bias, pyMax0,
      strStarts, strContains, listHasInfix, List.isPrefixOf,
      show (("" : String) = "A1") = False from by decide,
      show (("" : String) = "A2") = False from by decide,
      show (("" : String) = "B1") = False from by decide,
      show ((['横', '風'] : List Char) = []) = False from by decide]
  simp only [build_cards, horder]
  decide

end App

/-! ### predictor.py : score_lanes -/

namespace Predictor

/-- `predictor.Lane` (dataclass; missing values keep the `0.0` defaults). -/
structure Lane where
  lane : ℕ
  name : String := ""
  nat_win : ℚ := 0
  loc_win : ℚ := 0
  motor2 : ℚ := 0
  boat2 : ℚ := 0

/-- `course_bias.get(ln.lane, 0.1)`. -/
def course_bias (lane : ℕ) : ℚ :=
  match lane with
  | 1 => 33 / 100
  | 2 => 19 / 100
  | 3 => 17 / 100
  | 4 => 14 / 100
  | 5 => 1 / 10
  | 6 => 7 / 100
  | _ => 1 / 10

/-- The raw `power` of one lane in `predictor.score_lanes`. -/
def power (ln : Lane) : ℚ :=
  (4 / 10) * ln.motor2 + (2 / 10) * ln.boat2 + (25 / 100) * (ln.nat_win * 10) +
    (15 / 100) * (ln.loc_win * 10)

/-- `statistics.pstdev`: population standard deviation. The square root is
modelled by `Rat.sqrt`, which agrees with the real square root on the
perfect-square variances arising in the verified statements. -/
def pstdev (raw : List ℚ) : ℚ :=
  Rat.sqrt ((raw.map (fun x => (x - raw.sum / raw.length) ^ 2)).sum / raw.length)

/-- `predictor.score_lanes`. -/
def score_lanes (lanes : List Lane) : List (ℕ × ℚ) :=
  let raw := lanes.map power
  let mean := if raw = [] then 0 else raw.sum / (raw.length : ℚ)
  let stdev := if 1 < raw.length then pstdev raw else 1
  let scored := (lanes.zip raw).map (fun p =>
    let z := (p.2 - mean) / (if stdev = 0 then 1 else stdev)
    (p.1.lane, course_bias p.1.lane * (1 + (25 / 100) * z)))
  stableSortDesc Prod.snd scored

end Predictor

/-! ### biyori.py : _normalize / score_lanes -/

namespace Biyori

/-- One lane record of `fetch_biyori`, restricted to the four metric fields
`score_lanes` reads. -/
structure BLane where
  tenji : Option ℚ := none
  syuukai : Option ℚ := none
  chokusen : Option ℚ := none
  st : Option ℚ := none

/-- Python `max(a, b)` on rationals. -/
def pyMaxQ (a b : ℚ) : ℚ := if a < b then b else a

/-- Python `abs`. -/
def pyAbs (a : ℚ) : ℚ := if a < 0 then -a else a

/-- `math.isclose(a, b)` with the default tolerances
(`rel_tol = 1e-9`, `abs_tol = 0.0`). -/
def isclose (a b : ℚ) : Bool :=
  decide (pyAbs (a - b) ≤ (1 / 1000000000) * pyMaxQ (pyAbs a) (pyAbs b))

/-- Python `min` of a non-empty list. -/
def listMin (l : List ℚ) : ℚ :=
  match l with
  | [] => 0
  | x :: t => t.foldl (fun a b => if b < a then b else a) x

/-- Python `max` of a non-empty list. -/
def listMax (l : List ℚ) : ℚ :=
  match l with
  | [] => 0
  | x :: t => t.foldl (fun a b => if a < b then b else a) x

/-- `biyori._normalize`. -/
def _normalize (vals : List (Option ℚ)) (reverse : Bool) : List ℚ :=
  let xs := vals.filterMap id
  if xs.length ≤ 1 then List.replicate vals.length 0
  else
    let lo := listMin xs
    let hi := listMax xs
    if isclose lo hi then List.replicate vals.length 0
    else
      vals.map (fun v =>
        match v with
        | none => 0
        | some x =>
          let t := (x - lo) / (hi - lo)
          if reverse then 1 - t else t)

/-- The `WEIGHTS` table. -/
def wTenji : ℚ := 45 / 100

/-- The `WEIGHTS` table. -/
def wSyuukai : ℚ := 2 / 10

/-- The `WEIGHTS` table. -/
def wChokusen : ℚ := 2 / 10

/-- The `WEIGHTS` table. -/
def wSt : ℚ := 15 / 100

/-- The inline `adj` of `biyori.score_lanes`: attenuate a weight by the
fraction of zero entries of the normalized array. -/
def adj (w : ℚ) (arr : List ℚ) : ℚ :=
  let miss : ℚ := ((arr.filter (fun a => decide (a = 0))).length : ℚ) / (arr.length : ℚ)
  w * (1 - (1 / 2) * miss)

/-- The `ten` array of `biyori.score_lanes`. -/
def tenArr (lanes : List BLane) : List ℚ := _normalize (lanes.map BLane.tenji) true

/-- The `syu` array. -/
def syuArr (lanes : List BLane) : List ℚ := _normalize (lanes.map BLane.syuukai) false

/-- The `cho` array. -/
def choArr (lanes : List BLane) : List ℚ := _normalize (lanes.map BLane.chokusen) false

/-- The `st` array. -/
def stArr (lanes : List BLane) : List ℚ := _normalize (lanes.map BLane.st) true

/-- The body of the `for i in range(6)` loop of `biyori.score_lanes`: the
unsorted composite score of lane `i + 1` (list indexing is modelled by `getD`
with default `0`; the source always passes six-element arrays). -/
def laneScore (lanes : List BLane) (i : ℕ) : ℚ :=
  adj wTenji (tenArr lanes) * (tenArr lanes).getD i 0 +
    adj wSyuukai (syuArr lanes) * (syuArr lanes).getD i 0 +
    adj wChokusen (choArr lanes) * (choArr lanes).getD i 0 +
    adj wSt (stArr lanes) * (stArr lanes).getD i 0

/-- `biyori.score_lanes`: the six `(lane, score)` pairs sorted descending by
score (Python's stable `sorted`). -/
def score_lanes (lanes : List BLane) : List (ℕ × ℚ) :=
  stableSortDesc Prod.snd ((List.range 6).map (fun i => (i + 1, laneScore lanes i)))

end Biyori

/-! ### C4 : scoring on entirely missing metrics -/

/-- C4 (counterexample): on all-`null` metrics, `biyori.score_lanes` returns
six identical `0.0` scores — the six values are not pairwise distinct; its
`1..6` output order comes only from the stable sort's tie-breaking. -/
theorem biyori_all_null_scores_tie :
    (Biyori.score_lanes (List.replicate 6 {})).map Prod.snd = List.replicate 6 (0 : ℚ) ∧
      ¬ List.Pairwise (· ≠ ·) ((Biyori.score_lanes (List.replicate 6 {})).map Prod.snd) := by
  have h : Biyori.score_lanes (List.replicate 6 {}) =
      [(1, 0), (2, 0), (3, 0), (4, 0), (5, 0), (6, 0)] := by
    norm_num [Biyori.score_lanes, Biyori.laneScore, Biyori.tenArr, Biyori.syuArr,
      Biyori.choArr, Biyori.stArr, Biyori._normalize, Biyori.adj, stableSortDesc, insertDesc,
      List.range_succ, List.replicate]
  constructor
  · rw [h]
    rfl
  · rw [h]
    intro hp
    have h2 : List.Pairwise (· ≠ ·) ([0, 0, 0, 0, 0, 0] : List ℚ) := hp
    exact (List.pairwise_cons.mp h2).1 0 (List.mem_cons_self _ _) rfl

/-- C4 (amended): with every metric missing, `app.score_lane` and
`predictor.score_lanes` still produce six pairwise-distinct scores in strictly
descending lane order `1 > 2 > … > 6` — the fixed positional prior alone
decides — while `biyori.score_lanes` yields six tied scores whose `1..6`
output order is due only to the stable sort (see the tie counterexample). -/
theorem all_null_scores_positional :
    ([1, 2, 3, 4, 5, 6].map (fun k => App.score_lane k (fun _ => {}) {}) =
        [55, 43, 39, 35, 29, 25] ∧
      List.Pairwise (· > ·) ([55, 43, 39, 35, 29, 25] : List ℚ)) ∧
      (Predictor.score_lanes [{ lane := 1 }, { lane := 2 }, { lane := 3 }, { lane := 4 },
          { lane := 5 }, { lane := 6 }] =
        [(1, 33 / 100), (2, 19 / 100), (3, 17 / 100), (4, 7 / 50), (5, 1 / 10), (6, 7 / 100)] ∧
      List.Pairwise (· > ·)
        ([33 / 100, 19 / 100, 17 / 100, 7 / 50, 1 / 10, 7 / 100] : List ℚ)) ∧
      (Biyori.score_lanes (List.replicate 6 {})).map Prod.fst = [1, 2, 3, 4, 5, 6] := by
  refine ⟨⟨?_, ?_⟩, ⟨?_, ?_⟩, ?_⟩
  · norm_num [App.score_lane, App.baseScore, App.wind_bias, App.pyMax0, App.strStarts,
      App.strContains, App.listHasInfix, List.isPrefixOf,
      show (("" : String) = "A1") = False from by decide,
      show (("" : String) = "A2") = False from by decide,
      show (("" : String) = "B1") = False from by decide,
      show ((['横', '風'] : List Char) = []) = False from by decide]
  · norm_num [List.pairwise_cons]
  · norm_num [Predictor.score_lanes, Predictor.power, Predictor.course_bias, Predictor.pstdev,
      stableSortDesc, insertDesc, Rat.sqrt, List.zip, List.zipWith]
  · norm_num [List.pairwise_cons]
  · have h : Biyori.score_lanes (List.replicate 6 {}) =
        [(1, 0), (2, 0), (3, 0), (4, 0), (5, 0), (6, 0)] := by
      norm_num [Biyori.score_lanes, Biyori.laneScore, Biyori.tenArr, Biyori.syuArr,
        Biyori.choArr, Biyori.stArr, Biyori._normalize, Biyori.adj, stableSortDesc, insertDesc,
        List.range_succ, List.replicate]
    rw [h]
    rfl

/-! ### C6 : per-metric contributions of the composite score -/

theorem getD_replicate_zero (n i : ℕ) : (List.replicate n (0 : ℚ)).getD i 0 = 0 := by
  induction n generalizing i with
  | zero => simp [List.getD]
  | succ n ih =>
    cases i with
    | zero => simp [List.replicate]
    | succ j =>
      rw [List.replicate, List.getD_cons_succ]
      exact ih j

/-- A lane whose metric value is missing normalizes to `0` in every branch of
`biyori._normalize`. -/
theorem _normalize_none_at {vals : List (Option ℚ)} {rev : Bool} {i : ℕ}
    (h : vals.getD i none = none) :
    (Biyori._normalize vals rev).getD i 0 = 0 := by
  unfold Biyori._normalize
  by_cases h1 : (List.filterMap id vals).length ≤ 1
  · simp only [if_pos h1]
    exact getD_replicate_zero _ _
  · simp only [if_neg h1]
    by_cases h2 : Biyori.isclose (Biyori.listMin (List.filterMap id vals))
        (Biyori.listMax (List.filterMap id vals)) = true
    · simp only [if_pos h2]
      exact getD_replicate_zero _ _
    · simp only [if_neg h2]
      have h' := h
      rw [List.getD_eq_getElem?_getD] at h'
      rw [List.getD_eq_getElem?_getD, List.getElem?_map]
      cases hv : vals[i]? with
      | none => simp [hv]
      | some v =>
        rw [hv] at h'
        simp only [Option.getD_some] at h'
        subst h'
        simp [hv]

/-- C6 (amended): in `biyori.score_lanes` a lane whose value for one metric is
missing receives `0` from that metric while its other metrics still
contribute: with `tenji` missing, the composite score is exactly the sum of
the three remaining weighted normalized terms. -/
theorem laneScore_missing_metric (lanes : List Biyori.BLane) (i : ℕ)
    (h : (lanes.map Biyori.BLane.tenji).getD i none = none) :
    Biyori.laneScore lanes i =
      Biyori.adj Biyori.wSyuukai (Biyori.syuArr lanes) * (Biyori.syuArr lanes).getD i 0 +
        Biyori.adj Biyori.wChokusen (Biyori.choArr lanes) * (Biyori.choArr lanes).getD i 0 +
        Biyori.adj Biyori.wSt (Biyori.stArr lanes) * (Biyori.stArr lanes).getD i 0 := by
  unfold Biyori.laneScore Biyori.tenArr
  rw [_normalize_none_at h, mul_zero, zero_add]

/-- A concrete biyori input: three exhibition times present (lanes 1..3),
every other metric of every lane missing. -/
def lanesTenjiOnly : List Biyori.BLane :=
  [{ tenji := some 6 }, { tenji := some (69 / 10) }, { tenji := some 7 }, {}, {}, {}]

/-- Witness for the amended C6 theorem at `lanesTenjiOnly`, lane index 3
(whose `tenji` is missing). -/
theorem laneScore_missing_metric_witness :
    (lanesTenjiOnly.map Biyori.BLane.tenji).getD 3 none = none ∧
      Biyori.laneScore lanesTenjiOnly 3 =
        Biyori.adj Biyori.wSyuukai (Biyori.syuArr lanesTenjiOnly) *
            (Biyori.syuArr lanesTenjiOnly).getD 3 0 +
          Biyori.adj Biyori.wChokusen (Biyori.choArr lanesTenjiOnly) *
            (Biyori.choArr lanesTenjiOnly).getD 3 0 +
          Biyori.adj Biyori.wSt (Biyori.stArr lanesTenjiOnly) *
            (Biyori.stArr lanesTenjiOnly).getD 3 0 :=
  ⟨rfl, laneScore_missing_metric lanesTenjiOnly 3 rfl⟩

/-- Follows the spec's words (§4.5), for comparison with the implementation:
for one metric, a lane with a present value is ranked `1..6` in the metric's
configured direction (`asc = true` when smaller is better) and receives
`(7 - rank) * weight`; a missing value contributes `0`. -/
def specMetricContrib (vals : List (Option ℚ)) (asc : Bool) (w : ℚ) (i : ℕ) : ℚ :=
  match vals.getD i none with
  | none => 0
  | some x =>
    let better := (vals.filterMap id).filter (fun y =>
      if asc then decide (y < x) else decide (x < y))
    (7 - ((better.length + 1 : ℕ) : ℚ)) * w

/-- Follows the spec's words: the composite rank-based score over the four
configured biyori metrics in their configured directions. -/
def specRankScore (lanes : List Biyori.BLane) (i : ℕ) : ℚ :=
  specMetricContrib (lanes.map Biyori.BLane.tenji) true Biyori.wTenji i +
    specMetricContrib (lanes.map Biyori.BLane.syuukai) false Biyori.wSyuukai i +
    specMetricContrib (lanes.map Biyori.BLane.chokusen) false Biyori.wChokusen i +
    specMetricContrib (lanes.map Biyori.BLane.st) true Biyori.wSt i

/-- C6 (counterexample): at `lanesTenjiOnly` the implemented composite score
of lane 1 is `0.3` (min-max normalization times an attenuated weight), while
the claimed `(7 - rank) * weight` scheme would pay `6 * 0.45 = 2.7`: the
implementation does not score by rank contributions. -/
theorem biyori_score_not_rank_based :
    Biyori.laneScore lanesTenjiOnly 0 = 3 / 10 ∧
      specRankScore lanesTenjiOnly 0 = 27 / 10 ∧
      Biyori.laneScore lanesTenjiOnly 0 ≠ specRankScore lanesTenjiOnly 0 := by
  have h1 : Biyori.laneScore lanesTenjiOnly 0 = 3 / 10 := by
    norm_num [lanesTenjiOnly, Biyori.laneScore, Biyori.tenArr, Biyori.syuArr, Biyori.choArr,
      Biyori.stArr, Biyori._normalize, Biyori.adj, Biyori.isclose, Biyori.pyAbs,
      Biyori.pyMaxQ, Biyori.listMin, Biyori.listMax, Biyori.wTenji, Biyori.wSyuukai,
      Biyori.wChokusen, Biyori.wSt, List.filterMap_cons, List.filterMap_nil,
      List.foldl_cons, List.foldl_nil, List.filter_cons, List.filter_nil]
  have h2 : specRankScore lanesTenjiOnly 0 = 27 / 10 := by
    norm_num [specRankScore, specMetricContrib, lanesTenjiOnly, Biyori.wTenji,
      Biyori.wSyuukai, Biyori.wChokusen, Biyori.wSt, List.filterMap_cons, List.filterMap_nil,
      List.filter_cons, List.filter_nil]
  refine ⟨h1, h2, ?_⟩
  rw [h1, h2]
  norm_num

/-! ### scraper.py : fetch, the candidate chain, parse_racelist -/

namespace Scraper

/-- The observable outcome of one `requests.get(url, ...)` attempt: a raised
exception (timeout / transport error), or a response with a status code and a
body text. -/
inductive Outcome where
  | exc
  | resp (status : ℕ) (text : String)

/-- `scraper.fetch`: returns the body only for a status-200 response with
non-empty (truthy) text; every exception and every other response yields
`None`. -/
def fetch : Outcome → Option String
  | .exc => none
  | .resp status text => if status = 200 ∧ text ≠ "" then some text else none

/-- The `fetch(url1) or fetch(url2) or ...` candidate chain of `collect_all`,
instrumented with the number of failed candidates before the accepted one. -/
def fetchChain : List Outcome → Option String × ℕ
  | [] => (none, 0)
  | o :: os =>
      match fetch o with
      | some t => (some t, 0)
      | none =>
          let r := fetchChain os
          (r.1, r.2 + 1)

/-- A 200 body with no recognizable race-list block. -/
def bodyNoBlock : String := "<html><body>maintenance</body></html>"

/-- A 200 body with a recognizable block. -/
def bodyBlock : String := "<html><table><tr><td>1</td><td>6.72</td></tr></table></html>"

/-- C5 (counterexample): for the candidate sequence `[A: timeout, B: 200 with
no recognizable block, C: 200 with a valid block]`, the fetch chain accepts
B's body after exactly one failed attempt — `fetch` never consults any block
locator — so it does not return C's data after two failed attempts as
claimed. -/
theorem fetch_accepts_blockless_200 :
    fetchChain [.exc, .resp 200 bodyNoBlock, .resp 200 bodyBlock] = (some bodyNoBlock, 1) ∧
      fetchChain [.exc, .resp 200 bodyNoBlock, .resp 200 bodyBlock]
        ≠ (some bodyBlock, 2) := by
  constructor
  · decide
  · decide

/-- C5 (amended): `fetch` performs no layout validation — any status-200
response with a non-empty body is accepted immediately and the chain stops
there: after a failed first candidate, a 200 second candidate with any
non-empty body is returned with exactly one recorded failure, whatever the
later candidates hold. -/
theorem fetch_chain_accepts_first_200 (b : String) (hb : b ≠ "") (rest : List Outcome) :
    fetchChain (.exc :: .resp 200 b :: rest) = (some b, 1) := by
  simp [fetchChain, fetch, hb]

/-- Witness for the amended C5 theorem at the counterexample's candidates. -/
theorem fetch_chain_accepts_first_200_witness :
    bodyNoBlock ≠ "" ∧
      fetchChain [.exc, .resp 200 bodyNoBlock, .resp 200 bodyBlock] = (some bodyNoBlock, 1) :=
  ⟨by decide, fetch_chain_accepts_first_200 bodyNoBlock (by decide) [.resp 200 bodyBlock]⟩

/-- One parsed race-list record (the per-lane dict of `parse_racelist`). -/
structure RaceRec where
  lane : ℕ
  name : Option String
  nat_win : Option ℚ
  loc_win : Option ℚ
  st : Option ℚ
  motor2 : Option ℚ
  boat2 : Option ℚ
deriving DecidableEq

/-- The per-row field extraction of `parse_racelist` (the name regex,
`_find_first_float_after_keywords` and `_find_percent_after_keywords`),
abstracted as one function bundle from the row text; the claimed frame
invariant holds for every extractor, in particular the source's regex-based
one. -/
structure RowExtract where
  name : String → Option String
  nat_win : String → Option ℚ
  loc_win : String → Option ℚ
  st : String → Option ℚ
  motor2 : String → Option ℚ
  boat2 : String → Option ℚ

/-- The record appended for one non-empty row at 1-based position `lane`. -/
def mkRec (ex : RowExtract) (lane : ℕ) (txt : String) : RaceRec :=
  ⟨lane, ex.name txt, ex.nat_win txt, ex.loc_win txt, ex.st txt, ex.motor2 txt, ex.boat2 txt⟩

/-- The all-`None` padding record of `parse_racelist`. -/
def nullRec (lane : ℕ) : RaceRec :=
  ⟨lane, none, none, none, none, none, none⟩

/-- The row loop of `parse_racelist`: skip empty row texts, assign each
remaining row the next lane number (`lane += 1`), break once the counter
passes 6. -/
def parseRows (ex : RowExtract) (lane : ℕ) : List String → List RaceRec
  | [] => []
  | txt :: rest =>
      if txt = "" then parseRows ex lane rest
      else
        if 6 < lane + 1 then []
        else mkRec ex (lane + 1) txt :: parseRows ex (lane + 1) rest

/-- `scraper.parse_racelist` from the extracted `<tr>` texts on: the
`while len(results) < 6` padding loop is modelled by appending the missing
null records, and `results[:6]` by `take 6`. -/
def parse_racelist (ex : RowExtract) (rows : List String) : List RaceRec :=
  let results := parseRows ex 0 rows
  (results ++ (List.range' (results.length + 1) (6 - results.length)).map nullRec).take 6

theorem parseRows_length (ex : RowExtract) (rows : List String) :
    ∀ lane, (parseRows ex lane rows).length ≤ 6 - lane := by
  induction rows with
  | nil => intro lane; simp [parseRows]
  | cons txt rest ih =>
    intro lane
    by_cases he : txt = ""
    · simp only [parseRows, if_pos he]
      exact ih lane
    · simp only [parseRows, if_neg he]
      by_cases h6 : 6 < lane + 1
      · simp [if_pos h6]
      · simp only [if_neg h6, List.length_cons]
        have := ih (lane + 1)
        omega

theorem parseRows_lanes (ex : RowExtract) (rows : List String) :
    ∀ lane, (parseRows ex lane rows).map RaceRec.lane =
      List.range' (lane + 1) (parseRows ex lane rows).length := by
  induction rows with
  | nil => intro lane; simp [parseRows]
  | cons txt rest ih =>
    intro lane
    by_cases he : txt = ""
    · simp only [parseRows, if_pos he]
      exact ih lane
    · simp only [parseRows, if_neg he]
      by_cases h6 : 6 < lane + 1
      · simp [if_pos h6]
      · simp only [if_neg h6, List.map_cons, List.length_cons, List.range'_succ]
        rw [ih (lane + 1)]
        rfl

/-- C9: for every list of row texts and every field extractor,
`parse_racelist` returns exactly six records, their lane numbers are
`1,2,3,4,5,6` in increasing order, and every padding record beyond the parsed
rows has all-null name and metric fields. -/
theorem parse_racelist_complete_frame (ex : RowExtract) (rows : List String) :
    (parse_racelist ex rows).length = 6 ∧
      (parse_racelist ex rows).map RaceRec.lane = [1, 2, 3, 4, 5, 6] ∧
      ((parse_racelist ex rows).drop (parseRows ex 0 rows).length).all
        (fun r => decide (r.name = none ∧ r.nat_win = none ∧ r.loc_win = none ∧
          r.st = none ∧ r.motor2 = none ∧ r.boat2 = none)) = true := by
  have hlen : (parseRows ex 0 rows).length ≤ 6 := by
    simpa using parseRows_length ex rows 0
  have hplen : ((parseRows ex 0 rows) ++
      (List.range' ((parseRows ex 0 rows).length + 1)
        (6 - (parseRows ex 0 rows).length)).map nullRec).length = 6 := by
    simp [List.length_append]
    omega
  have htake : parse_racelist ex rows = (parseRows ex 0 rows) ++
      (List.range' ((parseRows ex 0 rows).length + 1)
        (6 - (parseRows ex 0 rows).length)).map nullRec := by
    rw [parse_racelist]
    exact List.take_of_length_le hplen.le
  refine ⟨by rw [htake]; exact hplen, ?_, ?_⟩
  · rw [htake, List.map_append, parseRows_lanes ex rows 0, List.map_map]
    have hmap : (List.range' ((parseRows ex 0 rows).length + 1)
        (6 - (parseRows ex 0 rows).length)).map (RaceRec.lane ∘ nullRec) =
        List.range' ((parseRows ex 0 rows).length + 1)
          (6 - (parseRows ex 0 rows).length) := by
      have : RaceRec.lane ∘ nullRec = id := rfl
      rw [this, List.map_id]
    rw [hmap]
    rw [show (0 + 1 : ℕ) = 1 from rfl]
    rw [show (parseRows ex 0 rows).length + 1 = 1 + (parseRows ex 0 rows).length by omega]
    have happ := List.range'_append 1 (parseRows ex 0 rows).length
      (6 - (parseRows ex 0 rows).length) 1
    simp only [one_mul] at happ
    rw [happ]
    rw [show 6 - (parseRows ex 0 rows).length + (parseRows ex 0 rows).length = 6 by omega]
    rfl
  · rw [htake, List.drop_left, List.all_eq_true]
    intro r hr
    obtain ⟨k, _, rfl⟩ := List.mem_map.mp hr
    simp [nullRec]

end Scraper

/-! ### Shared Python string primitives -/

/-- The whitespace characters stripped by Python `str.strip()` and matched by
`\s` (ASCII whitespace plus the ideographic space — the whitespace occurring
in the bot's inputs). -/
def isPyWs (c : Char) : Bool :=
  c = ' ' || c = '\t' || c = '\n' || c = '\r' || c.toNat = 11 || c.toNat = 12 ||
    c.toNat = 0x3000

/-- `str.strip()` on a character list. -/
def pyStripList (l : List Char) : List Char :=
  ((l.dropWhile isPyWs).reverse.dropWhile isPyWs).reverse

/-- Python `s.strip()`. -/
def pyStrip (s : String) : String := ⟨pyStripList s.data⟩

/-- ASCII lower-casing (what `re.IGNORECASE` needs for the inputs here). -/
def lowerChar (c : Char) : Char :=
  if 'A' ≤ c ∧ c ≤ 'Z' then Char.ofNat (c.toNat + 32) else c

/-- Python `\d`: ASCII or full-width decimal digit. -/
def isDigitChar (c : Char) : Bool :=
  c.isDigit || (0xFF10 ≤ c.toNat && c.toNat ≤ 0xFF19)

/-- The numeric value of an (ASCII or full-width) digit character. -/
def digitV (c : Char) : ℕ :=
  if c.isDigit then c.toNat - 48 else c.toNat - 0xFF10

/-- The value of a digit string read most-significant first (`int(...)`). -/
def digitsVal (l : List Char) : ℕ := l.foldl (fun a c => a * 10 + digitV c) 0

/-! ### predictors/input_parser.py -/

namespace InputParse

/-- `PLACE_MAP`, in insertion order (iteration order of the dict). -/
def PLACE_MAP : List (String × ℕ) :=
  [("桐生", 1), ("戸田", 2), ("江戸川", 3), ("平和島", 4), ("多摩川", 5), ("浜名湖", 6),
   ("蒲郡", 7), ("常滑", 8), ("津", 9), ("三国", 10), ("琵琶湖", 11), ("住之江", 12),
   ("尼崎", 13), ("鳴門", 14), ("丸亀", 15), ("児島", 16), ("宮島", 17), ("徳山", 18),
   ("下関", 19), ("若松", 20), ("芦屋", 21), ("福岡", 22), ("唐津", 23), ("大村", 24),
   ("まるがめ", 15), ("丸ガメ", 15), ("MARUGAME", 15)]

/-- Python's `\w` restricted to the character ranges occurring in the bot's
inputs: ASCII alphanumerics and underscore, hiragana/katakana, CJK
ideographs, and full-width alphanumerics. -/
def isWordChar (c : Char) : Bool :=
  c.isAlphanum || c = '_' || (0x3040 ≤ c.toNat && c.toNat ≤ 0x30FF) ||
    (0x4E00 ≤ c.toNat && c.toNat ≤ 0x9FFF) ||
    (0xFF10 ≤ c.toNat && c.toNat ≤ 0xFF19) ||
    (0xFF21 ≤ c.toNat && c.toNat ≤ 0xFF3A) ||
    (0xFF41 ≤ c.toNat && c.toNat ≤ 0xFF5A)

/-- The `\b` word boundary between an optional previous and next character. -/
def bnd (prev next : Option Char) : Bool :=
  (match prev with
   | none => false
   | some c => isWordChar c) !=
    (match next with
     | none => false
     | some c => isWordChar c)

/-- The `\s*R?\b` tail of the race-number regex `\b(\d{1,2})\s*R?\b`
(IGNORECASE), tried at `rest` with `prev` the character just before: either
an optional `R`/`r` followed by a boundary, a boundary right here, or one
more consumed space. Success is backtracking-order independent because the
capture (the digits) is fixed before this tail runs. -/
def raceTail (prev : Char) (rest : List Char) : Bool :=
  (match rest with
   | c :: rest2 => (c = 'R' || c = 'r') && bnd (some c) rest2.head?
   | [] => false) ||
    bnd (some prev) rest.head? ||
    (match rest with
     | c :: rest2 => isPyWs c && raceTail c rest2
     | [] => false)

/-- One attempt of `\b(\d{1,2})\s*R?\b` at the current position (`prevc` is
the character before it); `\d{1,2}` is greedy, two digits tried first. -/
def raceAt (prevc : Option Char) : List Char → Option ℕ
  | [] => none
  | c1 :: rest =>
      if bnd prevc (some c1) && isDigitChar c1 then
        match rest with
        | c2 :: rest2 =>
            if isDigitChar c2 && raceTail c2 rest2 then some (digitV c1 * 10 + digitV c2)
            else if raceTail c1 rest then some (digitV c1)
            else none
        | [] => if raceTail c1 [] then some (digitV c1) else none
      else none

/-- `re.search` for the race-number regex: first matching position, scanning
left to right. -/
def raceScan (prevc : Option Char) : List Char → Option ℕ
  | [] => none
  | c :: rest =>
      match raceAt prevc (c :: rest) with
      | some v => some v
      | none => raceScan (some c) rest

/-- Two consecutive digits (`\d{2}`). -/
def take2Digits (cs : List Char) : Option (List Char × List Char) :=
  match cs with
  | a :: b :: r => if isDigitChar a && isDigitChar b then some ([a, b], r) else none
  | _ => none

/-- `[^\d]?\d{2}` with the regex's backtracking: a greedy optional non-digit
separator followed by two digits. -/
def sepThen2 (acc : List Char) (rest : List Char) : Option (List Char × List Char) :=
  match rest with
  | x :: r2 =>
      if !isDigitChar x then
        match take2Digits r2 with
        | some (ds, r3) => some (acc ++ x :: ds, r3)
        | none => none
      else
        match take2Digits rest with
        | some (ds, r3) => some (acc ++ ds, r3)
        | none => none
  | [] => none

/-- One attempt of the date regex `(\d{4}[^\d]?\d{2}[^\d]?\d{2})` at the
current position, returning the matched text. -/
def dateAt (cs : List Char) : Option (List Char) :=
  match cs with
  | a :: b :: c :: d :: rest =>
      if isDigitChar a && isDigitChar b && isDigitChar c && isDigitChar d then
        match sepThen2 [a, b, c, d] rest with
        | some (acc2, r3) =>
            match sepThen2 acc2 r3 with
            | some (acc3, _) => some acc3
            | none => none
        | none => none
      else none
  | _ => none

/-- `re.search` for the date regex. -/
def dateScan : List Char → Option (List Char)
  | [] => none
  | c :: rest =>
      match dateAt (c :: rest) with
      | some m => some m
      | none => dateScan rest

/-- Gregorian leap year, as `datetime` uses. -/
def isLeap (y : ℕ) : Bool := (y % 4 = 0 && y % 100 ≠ 0) || y % 400 = 0

/-- Days in a month of the proleptic Gregorian calendar. -/
def daysInMonth (y m : ℕ) : ℕ :=
  if m = 2 then (if isLeap y then 29 else 28)
  else if m = 4 || m = 6 || m = 9 || m = 11 then 30
  else 31

/-- `datetime.strptime(s, "%Y%m%d")` succeeds on an 8-digit string iff the
denoted `(year, month, day)` is a valid calendar date with `year ≥ 1`. -/
def validYmd (y m d : ℕ) : Bool :=
  1 ≤ y && 1 ≤ m && m ≤ 12 && 1 ≤ d && d ≤ daysInMonth y m

/-- `input_parser._normalize_date` on the matched text: strip non-digits,
require exactly 8 digits denoting a valid date. (The source's second
`len(s) == 8` branch is dead code: the first branch already returns whenever
the length is 8.) -/
def _normalize_date (s : List Char) : Option (List Char) :=
  let ds := s.filter isDigitChar
  if ds.length = 8 then
    if validYmd (digitsVal (ds.take 4)) (digitsVal ((ds.drop 4).take 2))
        (digitsVal (ds.drop 6)) then some ds
    else none
  else none

/-- The place lookup of `parse_free_text`: the first `PLACE_MAP` entry whose
name occurs in the text (`re.search(name, t, re.IGNORECASE)`). -/
def placeOf (t : String) : Option ℕ :=
  (PLACE_MAP.find? (fun p =>
    App.listHasInfix (p.1.data.map lowerChar) (t.data.map lowerChar))).map Prod.snd

/-- The race-number extraction of `parse_free_text`, including its
`1 <= race_no <= 12` range check. -/
def raceOf (t : String) : Option ℕ :=
  match raceScan none t.data with
  | some r => if 1 ≤ r ∧ r ≤ 12 then some r else none
  | none => none

/-- The date extraction of `parse_free_text`. -/
def dateOf (t : String) : Option (List Char) :=
  match dateScan t.data with
  | some m => _normalize_date m
  | none => none

/-- `input_parser.parse_free_text`. -/
def parse_free_text (text : String) : Option (ℕ × ℕ × String) :=
  match placeOf (pyStrip text), raceOf (pyStrip text), dateOf (pyStrip text) with
  | some p, some r, some d => some (p, r, ⟨d⟩)
  | _, _, _ => none

end InputParse

theorem placeOf_mem {t : String} {p : ℕ} (h : InputParse.placeOf t = some p) :
    p ∈ InputParse.PLACE_MAP.map Prod.snd := by
  unfold InputParse.placeOf at h
  obtain ⟨q, hq, rfl⟩ := Option.map_eq_some'.mp h
  exact List.mem_map.mpr ⟨q, List.mem_of_find?_eq_some hq, rfl⟩

theorem raceOf_range {t : String} {r : ℕ} (h : InputParse.raceOf t = some r) :
    1 ≤ r ∧ r ≤ 12 := by
  unfold InputParse.raceOf at h
  cases hs : InputParse.raceScan none t.data with
  | none =>
    rw [hs] at h
    cases h
  | some r0 =>
    rw [hs] at h
    dsimp only at h
    by_cases hc : 1 ≤ r0 ∧ r0 ≤ 12
    · rw [if_pos hc] at h
      cases h
      exact hc
    · rw [if_neg hc] at h
      cases h

theorem normalize_date_props {m d : List Char}
    (h : InputParse._normalize_date m = some d) :
    d.length = 8 ∧ d.all isDigitChar = true ∧
      InputParse.validYmd (digitsVal (d.take 4)) (digitsVal ((d.drop 4).take 2))
        (digitsVal (d.drop 6)) = true := by
  unfold InputParse._normalize_date at h
  by_cases h8 : (m.filter isDigitChar).length = 8
  · rw [if_pos h8] at h
    by_cases hv : InputParse.validYmd (digitsVal ((m.filter isDigitChar).take 4))
        (digitsVal (((m.filter isDigitChar).drop 4).take 2))
        (digitsVal ((m.filter isDigitChar).drop 6)) = true
    · rw [if_pos hv] at h
      cases h
      refine ⟨h8, ?_, hv⟩
      rw [List.all_eq_true]
      intro c hc
      exact List.of_mem_filter hc
    · rw [if_neg hv] at h
      cases h
  · rw [if_neg h8] at h
    cases h

theorem dateOf_props {t : String} {d : List Char} (h : InputParse.dateOf t = some d) :
    d.length = 8 ∧ d.all isDigitChar = true ∧
      InputParse.validYmd (digitsVal (d.take 4)) (digitsVal ((d.drop 4).take 2))
        (digitsVal (d.drop 6)) = true := by
  unfold InputParse.dateOf at h
  cases hs : InputParse.dateScan t.data with
  | none =>
    rw [hs] at h
    cases h
  | some m =>
    rw [hs] at h
    exact normalize_date_props h

/-- C10: free-text query parsing validates its whole result or returns
nothing — whenever `parse_free_text` returns `some (p, r, d)`, `p` is one of
the configured venue numbers, `1 ≤ r ≤ 12`, and `d` is an 8-digit string
denoting a valid calendar date; no partially-filled result is ever
returned. -/
theorem parse_free_text_total_validation (text : String) (p r : ℕ) (d : String)
    (h : InputParse.parse_free_text text = some (p, r, d)) :
    p ∈ InputParse.PLACE_MAP.map Prod.snd ∧ 1 ≤ r ∧ r ≤ 12 ∧ d.data.length = 8 ∧
      d.data.all isDigitChar = true ∧
      InputParse.validYmd (digitsVal (d.data.take 4)) (digitsVal ((d.data.drop 4).take 2))
        (digitsVal (d.data.drop 6)) = true := by
  unfold InputParse.parse_free_text at h
  cases hp : InputParse.placeOf (pyStrip text) with
  | none =>
    rw [hp] at h
    exact Option.noConfusion h
  | some p0 =>
    rw [hp] at h
    cases hr : InputParse.raceOf (pyStrip text) with
    | none =>
      rw [hr] at h
      exact Option.noConfusion h
    | some r0 =>
      rw [hr] at h
      cases hd : InputParse.dateOf (pyStrip text) with
      | none =>
        rw [hd] at h
        exact Option.noConfusion h
      | some d0 =>
        rw [hd] at h
        simp only [Option.some.injEq, Prod.mk.injEq] at h
        obtain ⟨rfl, rfl, rfl⟩ := h
        obtain ⟨h1, h2, h3⟩ := dateOf_props hd
        exact ⟨placeOf_mem hp, (raceOf_range hr).1, (raceOf_range hr).2, h1, h2, h3⟩

/-- Witness for C10 at the concrete query `丸亀 11 20250812`. -/
theorem parse_free_text_total_validation_witness :
    InputParse.parse_free_text "丸亀 11 20250812" = some (15, 11, "20250812") ∧
      (15 ∈ InputParse.PLACE_MAP.map Prod.snd ∧ 1 ≤ 11 ∧ 11 ≤ 12 ∧
        ("20250812" : String).data.length = 8 ∧
        ("20250812" : String).data.all isDigitChar = true ∧
        InputParse.validYmd (digitsVal (("20250812" : String).data.take 4))
          (digitsVal ((("20250812" : String).data.drop 4).take 2))
          (digitsVal (("20250812" : String).data.drop 6)) = true) :=
  ⟨by decide, parse_free_text_total_validation "丸亀 11 20250812" 15 11 "20250812" (by decide)⟩

/-! ### biyori.py : _to_float, over an exact model of Python `float(str)`

Python `float` values are modelled exactly: a NaN, a signed infinity, or a
finite value carried as the exact decimal rational denoted by the accepted
literal. IEEE rounding is immaterial to the verified statements: they only
compare values produced by this same parser, and `str`/`repr` round-trips
floats exactly in Python just as the exact rendering round-trips here. -/

/-- The result of a successful Python `float(...)` call. -/
inductive PyF where
  | nan
  | inf (neg : Bool)
  | num (q : ℚ)
deriving DecidableEq

/-- Python float `==`: NaN compares unequal to everything, itself included. -/
def pyEq : PyF → PyF → Bool
  | .nan, _ => false
  | _, .nan => false
  | .inf a, .inf b => decide (a = b)
  | .num p, .num q => decide (p = q)
  | _, _ => false

/-- Python `==` on `_to_float` results (`None == None` is `True`). -/
def pyEqOpt : Option PyF → Option PyF → Bool
  | none, none => true
  | some a, some b => pyEq a b
  | _, _ => false

/-- The decimal-digit/space transform `float()` applies to its argument
before parsing, restricted to the characters occurring here: full-width
digits become ASCII digits, the ideographic space becomes a space. -/
def transformChar (c : Char) : Char :=
  if 0xFF10 ≤ c.toNat ∧ c.toNat ≤ 0xFF19 then Char.ofNat (c.toNat - 0xFF10 + 48)
  else if c.toNat = 0x3000 then ' '
  else c

/-- Scan a run of ASCII digits in which a single underscore may stand between
two digits (Python numeric literal syntax): accumulated value, digit count,
and the unconsumed rest. -/
def scanMore (acc len : ℕ) : List Char → ℕ × ℕ × List Char
  | [] => (acc, len, [])
  | c :: cs =>
      if c.isDigit then scanMore (acc * 10 + (c.toNat - 48)) (len + 1) cs
      else if c = '_' then
        match cs with
        | c2 :: cs2 =>
            if c2.isDigit then scanMore (acc * 10 + (c2.toNat - 48)) (len + 1) cs2
            else (acc, len, c :: cs)
        | [] => (acc, len, c :: cs)
      else (acc, len, c :: cs)

/-- The exact value of `⟨ip⟩.⟨fp⟩` with `fl` fraction digits. -/
def mantissaVal (ip fp fl : ℕ) : ℚ := ((ip * 10 ^ fl + fp : ℕ) : ℚ) / 10 ^ fl

/-- Exponent digits after an optional sign, which must exhaust the input. -/
def parseExpDigits (neg : Bool) : List Char → Option (Bool × ℕ)
  | [] => none
  | c :: cs =>
      if c.isDigit then
        let p := scanMore 0 0 (c :: cs)
        if p.2.2 = [] then some (neg, p.1) else none
      else none

/-- The `[+-]?digits` exponent after `e`/`E`. -/
def parseExp : List Char → Option (Bool × ℕ)
  | [] => none
  | c :: cs =>
      if c = '+' then parseExpDigits false cs
      else if c = '-' then parseExpDigits true cs
      else parseExpDigits false (c :: cs)

/-- The optional integer-digit part: a digit run when the input starts with a
digit, nothing otherwise. -/
def intPart : List Char → ℕ × ℕ × List Char
  | c :: cs => if c.isDigit then scanMore 0 0 (c :: cs) else (0, 0, c :: cs)
  | [] => (0, 0, [])

/-- The optional fraction part: a dot (consumed) followed by an optional
digit run. -/
def fracPart : List Char → ℕ × ℕ × List Char
  | c :: r =>
      if c = '.' then
        match r with
        | c2 :: _ => if c2.isDigit then scanMore 0 0 r else (0, 0, r)
        | [] => (0, 0, r)
      else (0, 0, c :: r)
  | [] => (0, 0, [])

/-- Parse the numeric body of a float literal (after the sign):
`[digits][.digits][(e|E)[sign]digits]`, requiring at least one digit in the
integer-or-fraction part; returns the exact decimal value. -/
def pyNumParse (cs : List Char) : Option ℚ :=
  let ipart := intPart cs
  let fpart := fracPart ipart.2.2
  if ipart.2.1 + fpart.2.1 = 0 then none
  else
    match fpart.2.2 with
    | [] => some (mantissaVal ipart.1 fpart.1 fpart.2.1)
    | e :: r2 =>
        if e = 'e' ∨ e = 'E' then
          match parseExp r2 with
          | some (eneg, ev) =>
              some (if eneg then mantissaVal ipart.1 fpart.1 fpart.2.1 / 10 ^ ev
                else mantissaVal ipart.1 fpart.1 fpart.2.1 * 10 ^ ev)
          | none => none
        else none

/-- The optional leading sign. -/
def readSigned : List Char → Bool × List Char
  | c :: rest =>
      if c = '+' then (false, rest)
      else if c = '-' then (true, rest)
      else (false, c :: rest)
  | [] => (false, [])

/-- After the sign: an `inf`/`infinity`/`nan` keyword (case-insensitive) or a
numeric literal; anything else raises, i.e. yields `none`. -/
def pyKeyword (neg : Bool) (body : List Char) : Option PyF :=
  if body.map lowerChar = ("inf").data ∨ body.map lowerChar = ("infinity").data then
    some (.inf neg)
  else if body.map lowerChar = ("nan").data then some .nan
  else
    match pyNumParse body with
    | some q => some (.num (if neg then -q else q))
    | none => none

/-- Python `float` on the transformed, stripped character list. -/
def pyFloatCore : List Char → Option PyF
  | [] => none
  | c :: rest => pyKeyword (readSigned (c :: rest)).1 (readSigned (c :: rest)).2

/-- Python `float(s)`: transform digits/spaces, strip whitespace, read an
optional sign, then a keyword or a numeric literal. -/
def pyFloatOfString (s : String) : Option PyF :=
  pyFloatCore (pyStripList (s.data.map transformChar))

/-- Single-character `str.replace`. -/
def charReplace (a b : Char) (l : List Char) : List Char :=
  l.map (fun c => if c = a then b else c)

/-- `s.replace("F.", "0.")`: left-to-right, non-overlapping, all
occurrences. -/
def replaceFDot : List Char → List Char
  | 'F' :: '.' :: rest => '0' :: '.' :: replaceFDot rest
  | c :: rest => c :: replaceFDot rest
  | [] => []

/-- The `if s.startswith("F."): s = s.replace("F.", "0.")` step. -/
def stepFDot : List Char → List Char
  | c1 :: c2 :: rest => if c1 = 'F' ∧ c2 = '.' then replaceFDot (c1 :: c2 :: rest)
      else c1 :: c2 :: rest
  | l => l

/-- The `if s.startswith("."): s = "0" + s` step. -/
def stepLeadDot : List Char → List Char
  | c :: rest => if c = '.' then '0' :: c :: rest else c :: rest
  | [] => []

/-- `biyori._to_float`: the source's successive reassignments of `s` are the
nested applications (strip, the two single-character replaces, the `F.`
rewrite, the leading-dot rewrite), ending in `float(s)`. (`if not x` also
catches a `None` argument at the call sites; the string model covers the
empty string.) -/
def _to_float (x : String) : Option PyF :=
  if x = "" then none
  else
    pyFloatOfString
      ⟨stepLeadDot (stepFDot (charReplace '－' '-' (charReplace 'Ｆ' 'F'
        (pyStripList x.data))))⟩

/-- C7: the numeric-token normalizer is total — by construction it maps every
string to a float value or `None` and never propagates an error — and on the
claim's input classes it behaves as specified: placeholders (empty string,
dash variants) and garbage map to `None`, flagged-start markers `F.xx` read
as `0.xx`, a leading decimal point reads as an implicit `0.`, and full-width
digits are converted. -/
theorem _to_float_never_raises :
    (∀ s : String, _to_float s = none ∨ ∃ v, _to_float s = some v) ∧
      _to_float "" = none ∧ _to_float "-" = none ∧ _to_float "－" = none ∧
      _to_float "ー" = none ∧ _to_float "abc" = none ∧
      _to_float "F.05" = some (.num (5 / 100)) ∧
      _to_float ".5" = some (.num (5 / 10)) ∧
      _to_float "１２３" = some (.num 123) ∧
      _to_float "6.72" = some (.num (672 / 100)) := by
  refine ⟨fun s => ?_, rfl, rfl, rfl, rfl, rfl, ?_, ?_, ?_, ?_⟩
  · cases h : _to_float s with
    | none => exact .inl rfl
    | some v => exact .inr ⟨v, rfl⟩
  · rw [show _to_float ("F.05") = some (.num (mantissaVal 0 5 2)) from rfl]
    norm_num [mantissaVal]
  · rw [show _to_float (".5") = some (.num (mantissaVal 0 5 1)) from rfl]
    norm_num [mantissaVal]
  · rw [show _to_float ("１２３") = some (.num (mantissaVal 123 0 0)) from rfl]
    norm_num [mantissaVal]
  · rw [show _to_float ("6.72") = some (.num (mantissaVal 6 72 2)) from rfl]
    norm_num [mantissaVal]

/-- The minimal `k` with `q * 10^k` integral (for a 10-smooth
denominator). -/
def qDecExp (q : ℚ) : ℕ := max (Nat.maxPowDiv 2 q.den) (Nat.maxPowDiv 5 q.den)

/-- Decimal digit characters of `n`, most significant first (`['0']` for
0). -/
def natDigitChars (n : ℕ) : List Char :=
  if n = 0 then [('0')]
  else (Nat.digits 10 n).reverse.map (fun d => Char.ofNat (48 + d))

/-- Positional decimal rendering of `m / 10^k` in Python `str` style:
optional minus sign, at least one integer digit, and a trailing `.0` for
integral values. (Python's shortest-repr switches to exponent notation at
extreme magnitudes; the formatting difference is immaterial here because
both notations reparse to the same value.) -/
def renderBody (n k : ℕ) : List Char :=
  if k = 0 then natDigitChars n ++ [('.'), ('0')]
  else if (natDigitChars n).length ≤ k then
    ('0') :: ('.') :: (List.replicate (k - (natDigitChars n).length) ('0') ++ natDigitChars n)
  else (natDigitChars n).take ((natDigitChars n).length - k) ++
    ('.') :: (natDigitChars n).drop ((natDigitChars n).length - k)

/-- See `renderBody`: sign and digits. -/
def renderPosNum (m : ℤ) (k : ℕ) : List Char :=
  (if m < 0 then [('-')] else []) ++ renderBody m.natAbs k

/-- `str` of a finite float value: the exact decimal digits of `q`. -/
def pyStrNum (q : ℚ) : List Char :=
  renderPosNum (q.num * ((10 ^ qDecExp q / q.den : ℕ) : ℤ)) (qDecExp q)

/-- Python `str` on a float. -/
def pyStr : PyF → String
  | .nan => "nan"
  | .inf true => "-inf"
  | .inf false => "inf"
  | .num q => ⟨pyStrNum q⟩

/-- Python `str` on an `Optional[float]` (`str(None) = "None"`). -/
def pyStrOpt : Option PyF → String
  | none => "None"
  | some v => pyStr v

/-- C8 (counterexample): at `x = "nan"` the normalizer's claimed idempotence
equation fails, because `_to_float("nan")` is NaN, `str` renders it back to
`"nan"`, and the two NaN results compare unequal under Python `==`. -/
theorem to_float_idem_fails_on_nan :
    pyEqOpt (_to_float (pyStrOpt (_to_float "nan"))) (_to_float "nan") = false := by
  rfl

/-! #### Round-trip of the exact rendering through the parser -/

/-- Most-significant-first digit accumulation (the loop of `scanMore`). -/
def msdVal (acc : ℕ) (ds : List ℕ) : ℕ := ds.foldl (fun a d => a * 10 + d) acc

theorem msdVal_acc (ds : List ℕ) : ∀ acc, msdVal acc ds = acc * 10 ^ ds.length + msdVal 0 ds := by
  induction ds with
  | nil => intro acc; simp [msdVal]
  | cons d t ih =>
    intro acc
    show msdVal (acc * 10 + d) t = acc * 10 ^ (d :: t).length + msdVal (0 * 10 + d) t
    rw [ih (acc * 10 + d), ih (0 * 10 + d), List.length_cons]
    ring

theorem msdVal_append (xs ys : List ℕ) :
    msdVal 0 (xs ++ ys) = msdVal 0 xs * 10 ^ ys.length + msdVal 0 ys := by
  show List.foldl _ _ (xs ++ ys) = _
  rw [List.foldl_append]
  exact msdVal_acc ys _

theorem msdVal_reverse_digits (n : ℕ) : msdVal 0 (Nat.digits 10 n).reverse = n := by
  have key : ∀ L : List ℕ, msdVal 0 L.reverse = Nat.ofDigits 10 L := by
    intro L
    induction L with
    | nil => rfl
    | cons d t ih =>
      rw [List.reverse_cons, msdVal_append, ih, Nat.ofDigits_cons]
      have h1 : msdVal 0 [d] = d := by simp [msdVal]
      rw [h1, List.length_singleton]
      ring
  rw [key, Nat.ofDigits_digits]

theorem msdVal_replicate_zero (z : ℕ) : msdVal 0 (List.replicate z 0) = 0 := by
  induction z with
  | zero => rfl
  | succ n ih =>
    show msdVal (0 * 10 + 0) (List.replicate n 0) = 0
    simpa using ih

/-- The facts needed about an ASCII digit character `chr(48 + d)`. -/
theorem digitCharFacts {d : ℕ} (h : d < 10) :
    (Char.ofNat (48 + d)).isDigit = true ∧ (Char.ofNat (48 + d)).toNat - 48 = d ∧
      isPyWs (Char.ofNat (48 + d)) = false ∧
      transformChar (Char.ofNat (48 + d)) = Char.ofNat (48 + d) ∧
      lowerChar (Char.ofNat (48 + d)) = Char.ofNat (48 + d) ∧
      Char.ofNat (48 + d) ≠ 'Ｆ' ∧ Char.ofNat (48 + d) ≠ '－' ∧
      Char.ofNat (48 + d) ≠ 'F' ∧ Char.ofNat (48 + d) ≠ '.' ∧
      Char.ofNat (48 + d) ≠ '+' ∧ Char.ofNat (48 + d) ≠ '-' ∧
      Char.ofNat (48 + d) ≠ 'i' ∧ Char.ofNat (48 + d) ≠ 'n' := by
  interval_cases d <;> exact by decide

/-- The characters of `natDigitChars n` are digit characters, they are
non-empty, and they denote `n`. -/
theorem natDigitChars_spec (n : ℕ) :
    (∀ c ∈ natDigitChars n, ∃ d, d < 10 ∧ c = Char.ofNat (48 + d)) ∧
      natDigitChars n ≠ [] ∧
      msdVal 0 ((natDigitChars n).map (fun c => c.toNat - 48)) = n := by
  unfold natDigitChars
  by_cases h0 : n = 0
  · subst h0
    rw [if_pos rfl]
    refine ⟨?_, by decide, by decide⟩
    intro c hc
    rw [List.mem_singleton] at hc
    exact ⟨0, by norm_num, hc⟩
  · rw [if_neg h0]
    have hds : ∀ d ∈ (Nat.digits 10 n).reverse, d < 10 := fun d hd =>
      Nat.digits_lt_base (by norm_num) (List.mem_reverse.mp hd)
    refine ⟨?_, ?_, ?_⟩
    · intro c hc
      obtain ⟨d, hd, rfl⟩ := List.mem_map.mp hc
      exact ⟨d, hds d hd, rfl⟩
    · intro he
      rw [List.map_eq_nil_iff, List.reverse_eq_nil_iff] at he
      exact (Nat.digits_ne_nil_iff_ne_zero.mpr h0) he
    · rw [List.map_map]
      have : (Nat.digits 10 n).reverse.map ((fun c : Char => c.toNat - 48) ∘
          fun d => Char.ofNat (48 + d)) = (Nat.digits 10 n).reverse.map id := by
        apply List.map_congr_left
        intro d hd
        exact (digitCharFacts (hds d hd)).2.1
      rw [this, List.map_id]
      exact msdVal_reverse_digits n

/-- `scanMore` consumes exactly a run of digit characters, stopping at a rest
whose head is neither a digit nor an underscore. -/
theorem scanMore_digits (ds : List Char)
    (hds : ∀ c ∈ ds, ∃ d, d < 10 ∧ c = Char.ofNat (48 + d))
    (rest : List Char) (hrest : ∀ c, rest.head? = some c → c.isDigit = false ∧ c ≠ '_') :
    ∀ acc len, scanMore acc len (ds ++ rest) =
      (msdVal acc (ds.map (fun c => c.toNat - 48)), len + ds.length, rest) := by
  induction ds with
  | nil =>
    intro acc len
    simp only [List.nil_append, List.map_nil, msdVal, List.foldl_nil, List.length_nil,
      Nat.add_zero]
    cases rest with
    | nil => rfl
    | cons c r =>
      obtain ⟨hcd, hcu⟩ := hrest c rfl
      rw [scanMore.eq_def]
      dsimp only
      rw [if_neg (by simp [hcd]), if_neg hcu]
  | cons c t ih =>
    intro acc len
    obtain ⟨d, hd, rfl⟩ := hds _ (List.mem_cons_self _ _)
    have hfacts := digitCharFacts hd
    rw [List.cons_append, scanMore.eq_def]
    dsimp only
    rw [if_pos hfacts.1, hfacts.2.1,
      ih (fun x hx => hds x (List.mem_cons_of_mem _ hx)) (acc * 10 + d) (len + 1)]
    simp only [List.map_cons, List.length_cons, hfacts.2.1, Prod.mk.injEq]
    refine ⟨by rfl, by omega, by trivial⟩

/-- `pyNumParse` on a digit run, a dot, and a second digit run. -/
theorem pyNumParse_digits_dot_digits (I Fr : List Char)
    (hI : ∀ c ∈ I, ∃ d, d < 10 ∧ c = Char.ofNat (48 + d)) (hIne : I ≠ [])
    (hF : ∀ c ∈ Fr, ∃ d, d < 10 ∧ c = Char.ofNat (48 + d)) :
    pyNumParse (I ++ '.' :: Fr) =
      some (mantissaVal (msdVal 0 (I.map (fun c => c.toNat - 48)))
        (msdVal 0 (Fr.map (fun c => c.toNat - 48))) Fr.length) := by
  obtain ⟨c0, I', rfl⟩ : ∃ c0 I', I = c0 :: I' := by
    cases I with
    | nil => exact absurd rfl hIne
    | cons a b => exact ⟨a, b, rfl⟩
  obtain ⟨d0, hd0, hc0⟩ := hI c0 (List.mem_cons_self _ _)
  have hint : intPart ((c0 :: I') ++ '.' :: Fr) =
      (msdVal 0 ((c0 :: I').map (fun c => c.toNat - 48)), (c0 :: I').length, '.' :: Fr) := by
    rw [List.cons_append, intPart, if_pos (by rw [hc0]; exact (digitCharFacts hd0).1),
      ← List.cons_append]
    have := scanMore_digits (c0 :: I') hI ('.' :: Fr)
      (fun c hc => by
        simp only [List.head?_cons, Option.some.injEq] at hc
        subst hc
        exact ⟨by decide, by decide⟩) 0 0
    simpa using this
  have hfrac : fracPart ('.' :: Fr) =
      (msdVal 0 (Fr.map (fun c => c.toNat - 48)), Fr.length, []) := by
    cases Fr with
    | nil =>
      rw [fracPart, if_pos rfl]
      simp [msdVal]
    | cons c2 F' =>
      obtain ⟨d2, hd2, hc2⟩ := hF c2 (List.mem_cons_self _ _)
      rw [fracPart, if_pos rfl]
      rw [if_pos (by rw [hc2]; exact (digitCharFacts hd2).1)]
      have := scanMore_digits (c2 :: F') hF [] (fun c hc => by cases hc) 0 0
      rw [List.append_nil] at this
      simpa using this
  rw [pyNumParse]
  simp only [hint, hfrac]
  rw [if_neg (by simp)]

theorem pyStripList_clean {l : List Char} (h : ∀ c ∈ l, isPyWs c = false) :
    pyStripList l = l := by
  have h1 : ∀ (m : List Char), (∀ c ∈ m, isPyWs c = false) → m.dropWhile isPyWs = m := by
    intro m hm
    cases m with
    | nil => rfl
    | cons a t =>
      rw [List.dropWhile_cons, if_neg (by simp [hm a (List.mem_cons_self _ _)])]
  unfold pyStripList
  rw [h1 _ h, h1 _ (fun c hc => h c (List.mem_reverse.mp hc)), List.reverse_reverse]

/-- The rendered body splits as integer digits, a dot, and fraction digits
whose exact value is `n / 10^k`. -/
theorem renderBody_decomp (n k : ℕ) :
    ∃ I Fr, renderBody n k = I ++ '.' :: Fr ∧
      (∀ c ∈ I, ∃ d, d < 10 ∧ c = Char.ofNat (48 + d)) ∧ I ≠ [] ∧
      (∀ c ∈ Fr, ∃ d, d < 10 ∧ c = Char.ofNat (48 + d)) ∧
      mantissaVal (msdVal 0 (I.map (fun c => c.toNat - 48)))
        (msdVal 0 (Fr.map (fun c => c.toNat - 48))) Fr.length = (n : ℚ) / 10 ^ k := by
  obtain ⟨hdigs, hne, hval⟩ := natDigitChars_spec n
  unfold renderBody
  by_cases hk : k = 0
  · subst hk
    rw [if_pos rfl]
    refine ⟨natDigitChars n, [('0')], rfl, hdigs, hne, ?_, ?_⟩
    · intro c hc
      rw [List.mem_singleton] at hc
      exact ⟨0, by norm_num, by rw [hc]⟩
    · rw [hval, show msdVal 0 (([('0')]).map (fun c => c.toNat - 48)) = 0 from by decide]
      rw [mantissaVal]
      push_cast
      field_simp
  · rw [if_neg hk]
    by_cases hlen : (natDigitChars n).length ≤ k
    · rw [if_pos hlen]
      refine ⟨[('0')], List.replicate (k - (natDigitChars n).length) ('0') ++ natDigitChars n,
        rfl, ?_, by simp, ?_, ?_⟩
      · intro c hc
        rw [List.mem_singleton] at hc
        exact ⟨0, by norm_num, by rw [hc]⟩
      · intro c hc
        rcases List.mem_append.mp hc with hc | hc
        · have hc0 : c = '0' := List.eq_of_mem_replicate hc
          exact ⟨0, by norm_num, by rw [hc0]⟩
        · exact hdigs c hc
      · have hmapz : (List.replicate (k - (natDigitChars n).length) ('0')).map
            (fun c => c.toNat - 48) = List.replicate (k - (natDigitChars n).length) 0 := by
          rw [List.map_replicate, show ('0').toNat - 48 = 0 from rfl]
        rw [show msdVal 0 (([('0')]).map (fun c => c.toNat - 48)) = 0 from by decide]
        rw [List.map_append, hmapz, msdVal_append, msdVal_replicate_zero, hval]
        rw [List.length_append, List.length_replicate]
        rw [show k - (natDigitChars n).length + (natDigitChars n).length = k from by omega]
        rw [mantissaVal]
        push_cast
        ring_nf
    · rw [if_neg hlen]
      push_neg at hlen
      refine ⟨(natDigitChars n).take ((natDigitChars n).length - k),
        (natDigitChars n).drop ((natDigitChars n).length - k), rfl,
        fun c hc => hdigs c (List.mem_of_mem_take hc),
        List.ne_nil_of_length_pos (by rw [List.length_take]; omega),
        fun c hc => hdigs c (List.mem_of_mem_drop hc), ?_⟩
      have hdl : ((natDigitChars n).drop ((natDigitChars n).length - k)).length = k := by
        rw [List.length_drop]
        omega
      have hsplit : msdVal 0 (((natDigitChars n).take ((natDigitChars n).length - k)).map
            (fun c => c.toNat - 48)) * 10 ^ k +
          msdVal 0 (((natDigitChars n).drop ((natDigitChars n).length - k)).map
            (fun c => c.toNat - 48)) = n := by
        have happ := msdVal_append
          (((natDigitChars n).take ((natDigitChars n).length - k)).map (fun c => c.toNat - 48))
          (((natDigitChars n).drop ((natDigitChars n).length - k)).map (fun c => c.toNat - 48))
        rw [← List.map_append, List.take_append_drop, hval, List.length_map, hdl] at happ
        omega
      rw [hdl, mantissaVal]
      have hcast : ((msdVal 0 (((natDigitChars n).take ((natDigitChars n).length - k)).map
            (fun c => c.toNat - 48)) * 10 ^ k +
          msdVal 0 (((natDigitChars n).drop ((natDigitChars n).length - k)).map
            (fun c => c.toNat - 48)) : ℕ) : ℚ) = (n : ℚ) := by
        exact_mod_cast hsplit
      rw [hcast]

theorem charReplace_id {a b : Char} {l : List Char} (h : ∀ c ∈ l, c ≠ a) :
    charReplace a b l = l := by
  unfold charReplace
  have hc : ∀ c ∈ l, (if c = a then b else c) = id c := fun c hc => if_neg (h c hc)
  rw [List.map_congr_left hc, List.map_id]

theorem stepFDot_of_head {c1 c2 : Char} {rest : List Char} (h : c1 ≠ 'F') :
    stepFDot (c1 :: c2 :: rest) = c1 :: c2 :: rest := by
  rw [stepFDot]
  exact if_neg (fun hand => h hand.1)

theorem stepLeadDot_of_head {c : Char} {rest : List Char} (h : c ≠ '.') :
    stepLeadDot (c :: rest) = c :: rest := by
  rw [stepLeadDot]
  exact if_neg h

/-- Every character of a rendered number is inert under the normalizer's
preprocessing. -/
theorem renderChars_clean (m : ℤ) (k : ℕ) :
    ∀ c ∈ renderPosNum m k, isPyWs c = false ∧ transformChar c = c ∧ c ≠ 'Ｆ' ∧
      c ≠ '－' ∧ c ≠ 'F' := by
  intro c hc
  rw [renderPosNum] at hc
  rcases List.mem_append.mp hc with hc | hc
  · by_cases hm : m < 0
    · rw [if_pos hm, List.mem_singleton] at hc
      rw [hc]
      exact ⟨by decide, by decide, by decide, by decide, by decide⟩
    · rw [if_neg hm] at hc
      cases hc
  · obtain ⟨I, Fr, hbody, hI, _, hF, _⟩ := renderBody_decomp m.natAbs k
    rw [hbody] at hc
    have hdig : (∃ d, d < 10 ∧ c = Char.ofNat (48 + d)) ∨ c = '.' := by
      rcases List.mem_append.mp hc with hc | hc
      · exact .inl (hI c hc)
      · rcases List.mem_cons.mp hc with hc | hc
        · exact .inr hc
        · exact .inl (hF c hc)
    rcases hdig with ⟨d, hd, rfl⟩ | rfl
    · obtain ⟨_, _, f3, f4, _, f6, f7, f8, _⟩ := digitCharFacts hd
      exact ⟨f3, f4, f6, f7, f8⟩
    · exact ⟨by decide, by decide, by decide, by decide, by decide⟩

theorem pyFloatOfString_render (m : ℤ) (k : ℕ) :
    pyFloatOfString ⟨renderPosNum m k⟩ = some (.num ((m : ℚ) / 10 ^ k)) := by
  obtain ⟨I, Fr, hbody, hI, hIne, hF, hval⟩ := renderBody_decomp m.natAbs k
  obtain ⟨c0, I', rfl⟩ : ∃ c0 I', I = c0 :: I' := by
    cases I with
    | nil => exact absurd rfl hIne
    | cons a b => exact ⟨a, b, rfl⟩
  obtain ⟨d0, hd0, hc0⟩ := hI c0 (List.mem_cons_self _ _)
  obtain ⟨f1, f2, f3, f4, f5, f6, f7, f8, f9, f10, f11, f12, f13⟩ := digitCharFacts hd0
  rw [← hc0] at f1 f2 f3 f4 f5 f6 f7 f8 f9 f10 f11 f12 f13
  have hclean := renderChars_clean m k
  have hmap : (renderPosNum m k).map transformChar = renderPosNum m k := by
    have hcg : ∀ c ∈ renderPosNum m k, transformChar c = id c :=
      fun c hc => (hclean c hc).2.1
    rw [List.map_congr_left hcg, List.map_id]
  have hstrip : pyStripList (((⟨renderPosNum m k⟩ : String)).data.map transformChar)
      = renderPosNum m k := by
    rw [show ((⟨renderPosNum m k⟩ : String)).data = renderPosNum m k from rfl, hmap]
    exact pyStripList_clean (fun c hc => (hclean c hc).1)
  have hparse := pyNumParse_digits_dot_digits (c0 :: I') Fr hI hIne hF
  have hkw : ∀ neg : Bool, pyKeyword neg ((c0 :: I') ++ '.' :: Fr) =
      some (.num (if neg then -(mantissaVal (msdVal 0 ((c0 :: I').map (fun c => c.toNat - 48)))
        (msdVal 0 (Fr.map (fun c => c.toNat - 48))) Fr.length)
        else mantissaVal (msdVal 0 ((c0 :: I').map (fun c => c.toNat - 48)))
          (msdVal 0 (Fr.map (fun c => c.toNat - 48))) Fr.length)) := by
    intro neg
    have hlow : ((c0 :: I') ++ '.' :: Fr).map lowerChar =
        c0 :: (I' ++ '.' :: Fr).map lowerChar := by
      rw [List.cons_append, List.map_cons, f5]
    rw [pyKeyword, if_neg, if_neg]
    · rw [hparse]
    · rw [hlow, show ("nan").data = 'n' :: ('a' :: ['n']) from rfl]
      intro he
      injection he with h1 _
      exact f13 h1
    · rw [hlow]
      rintro (he | he)
      · rw [show ("inf").data = 'i' :: ('n' :: ['f']) from rfl] at he
        injection he with h1 _
        exact f12 h1
      · rw [show ("infinity").data = 'i' :: ('n' :: ('f' :: ('i' :: ('n' :: ('i' :: ('t' ::
          ['y'])))))) from rfl] at he
        injection he with h1 _
        exact f12 h1
  have hvalq : (m.natAbs : ℚ) = |(m : ℚ)| := by
    rw [Int.cast_natAbs, Int.cast_abs]
  rw [pyFloatOfString, hstrip]
  by_cases hm : m < 0
  · have hrp : renderPosNum m k = '-' :: ((c0 :: I') ++ '.' :: Fr) := by
      rw [renderPosNum, if_pos hm, hbody]
      rfl
    rw [hrp, pyFloatCore, readSigned, if_neg (by decide), if_pos rfl]
    rw [hkw true]
    have habs : (m.natAbs : ℚ) = -(m : ℚ) := by
      rw [hvalq, abs_of_neg (by exact_mod_cast hm)]
    rw [hval, habs]
    norm_num
    ring
  · have hrp : renderPosNum m k = (c0 :: I') ++ '.' :: Fr := by
      rw [renderPosNum, if_neg hm, hbody]
      rfl
    have hrp' : renderPosNum m k = c0 :: (I' ++ '.' :: Fr) := by
      rw [hrp, List.cons_append]
    rw [hrp', pyFloatCore, readSigned, if_neg f10, if_neg f11, ← List.cons_append]
    rw [hkw false]
    have habs : (m.natAbs : ℚ) = (m : ℚ) := by
      rw [hvalq, abs_of_nonneg (by exact_mod_cast not_lt.mp hm)]
    rw [hval, habs]
    norm_num

/-- The normalizer's preprocessing is inert on a rendered number, so
`_to_float` of a rendered number is `float()` of it. -/
theorem _to_float_render (m : ℤ) (k : ℕ) :
    _to_float ⟨renderPosNum m k⟩ = some (.num ((m : ℚ) / 10 ^ k)) := by
  have hclean := renderChars_clean m k
  obtain ⟨I, Fr, hbody, hI, hIne, hF, _⟩ := renderBody_decomp m.natAbs k
  obtain ⟨c0, I', rfl⟩ : ∃ c0 I', I = c0 :: I' := by
    cases I with
    | nil => exact absurd rfl hIne
    | cons a b => exact ⟨a, b, rfl⟩
  obtain ⟨d0, hd0, hc0⟩ := hI c0 (List.mem_cons_self _ _)
  obtain ⟨_, _, _, _, _, _, _, f8, f9, _, _, _, _⟩ := digitCharFacts hd0
  rw [← hc0] at f8 f9
  have hiron : stepLeadDot (stepFDot (charReplace '－' '-' (charReplace 'Ｆ' 'F'
      (pyStripList (((⟨renderPosNum m k⟩ : String)).data))))) = renderPosNum m k := by
    rw [show ((⟨renderPosNum m k⟩ : String)).data = renderPosNum m k from rfl]
    rw [pyStripList_clean (fun c hc => (hclean c hc).1)]
    rw [charReplace_id (fun c hc => (hclean c hc).2.2.1)]
    rw [charReplace_id (fun c hc => (hclean c hc).2.2.2.1)]
    by_cases hm : m < 0
    · have hrp : renderPosNum m k = '-' :: c0 :: (I' ++ '.' :: Fr) := by
        rw [renderPosNum, if_pos hm, hbody]
        rfl
      rw [hrp, stepFDot_of_head (by decide), stepLeadDot_of_head (by decide), ← hrp]
    · have hrp : renderPosNum m k = c0 :: (I' ++ '.' :: Fr) := by
        rw [renderPosNum, if_neg hm, hbody]
        rfl
      cases I' with
      | nil =>
        have hrp2 : renderPosNum m k = c0 :: '.' :: Fr := by
          rw [hrp]
          rfl
        rw [hrp2, stepFDot_of_head f8, stepLeadDot_of_head f9, ← hrp2]
      | cons c1 I'' =>
        have hrp2 : renderPosNum m k = c0 :: c1 :: (I'' ++ '.' :: Fr) := by
          rw [hrp]
          rfl
        rw [hrp2, stepFDot_of_head f8, stepLeadDot_of_head f9, ← hrp2]
  have hx : (⟨renderPosNum m k⟩ : String) ≠ "" := by
    intro h
    have hdata : renderPosNum m k = [] := congrArg String.data h
    rw [renderPosNum, hbody] at hdata
    rcases List.append_eq_nil.mp hdata with ⟨_, h2⟩
    exact List.noConfusion h2
  rw [_to_float, if_neg hx, hiron]
  exact pyFloatOfString_render m k

theorem mantissaVal_decimal (ip fp fl : ℕ) :
    ∃ a : ℤ, mantissaVal ip fp fl = (a : ℚ) / 10 ^ fl :=
  ⟨(ip * 10 ^ fl + fp : ℕ), by rw [mantissaVal]; push_cast; ring⟩

/-- Every finite value produced by the numeric parser is a decimal rational
`a / 10^b`. -/
theorem pyNumParse_decimal {cs : List Char} {q : ℚ} (h : pyNumParse cs = some q) :
    ∃ (a : ℤ) (b : ℕ), q = (a : ℚ) / 10 ^ b := by
  rw [pyNumParse] at h
  split at h
  · exact absurd h (by simp)
  · split at h
    · obtain ⟨a, ha⟩ := mantissaVal_decimal (intPart cs).1 (fracPart (intPart cs).2.2).1
        (fracPart (intPart cs).2.2).2.1
      rw [Option.some.injEq] at h
      exact ⟨a, _, by rw [← h, ha]⟩
    · split at h
      · split at h
        · rw [Option.some.injEq] at h
          obtain ⟨a, ha⟩ := mantissaVal_decimal (intPart cs).1 (fracPart (intPart cs).2.2).1
            (fracPart (intPart cs).2.2).2.1
          rename_i eneg ev _
          cases eneg with
          | false =>
            refine ⟨a * 10 ^ ev, (fracPart (intPart cs).2.2).2.1, ?_⟩
            rw [← h]
            simp only [Bool.false_eq_true, if_false]
            rw [ha]
            push_cast
            rw [div_mul_eq_mul_div]
          | true =>
            refine ⟨a, (fracPart (intPart cs).2.2).2.1 + ev, ?_⟩
            rw [← h]
            simp only [if_true]
            rw [ha, div_div, ← pow_add]
        · exact absurd h (by simp)
      · exact absurd h (by simp)

theorem pyKeyword_num_decimal {neg : Bool} {body : List Char} {q : ℚ}
    (h : pyKeyword neg body = some (.num q)) :
    ∃ (a : ℤ) (b : ℕ), q = (a : ℚ) / 10 ^ b := by
  rw [pyKeyword] at h
  split at h
  · simp at h
  · split at h
    · simp at h
    · split at h
      · rename_i q0 hq0
        rw [Option.some.injEq, PyF.num.injEq] at h
        obtain ⟨a, b, hab⟩ := pyNumParse_decimal hq0
        cases neg with
        | false =>
          refine ⟨a, b, ?_⟩
          rw [← h]
          simpa using hab
        | true =>
          refine ⟨-a, b, ?_⟩
          rw [← h]
          simp only [if_true]
          rw [hab]
          push_cast
          ring
      · exact absurd h (by simp)

theorem _to_float_num_decimal {x : String} {q : ℚ}
    (h : _to_float x = some (.num q)) : ∃ (a : ℤ) (b : ℕ), q = (a : ℚ) / 10 ^ b := by
  rw [_to_float] at h
  split at h
  · exact absurd h (by simp)
  · rw [pyFloatOfString] at h
    generalize hl : pyStripList _ = l at h
    cases l with
    | nil => exact absurd h (by simp [pyFloatCore])
    | cons c rest => exact pyKeyword_num_decimal h

/-- A decimal rational's denominator divides `10 ^ qDecExp`. -/
theorem decimal_den_dvd {q : ℚ} (hq : ∃ (a : ℤ) (b : ℕ), q = (a : ℚ) / 10 ^ b) :
    q.den ∣ 10 ^ qDecExp q := by
  obtain ⟨a, b, rfl⟩ := hq
  set q := (a : ℚ) / 10 ^ b with hqdef
  have hzdvd : ((q.den : ℕ) : ℤ) ∣ (10 ^ b : ℤ) := by
    have hdd := Rat.den_dvd a (10 ^ b)
    have heq : Rat.divInt a (10 ^ b) = q := by
      rw [Rat.divInt_eq_div, hqdef]
      push_cast
      ring_nf
    rwa [heq] at hdd
  have hdvd : q.den ∣ 10 ^ b := by
    have : ((q.den : ℕ) : ℤ) ∣ (((10 ^ b : ℕ) : ℤ)) := by
      convert hzdvd using 1
      push_cast
      ring
    exact_mod_cast this
  have hdpos : 0 < q.den := q.pos
  set d := q.den with hd
  set α := Nat.maxPowDiv 2 d with hα
  set β := Nat.maxPowDiv 5 d with hβ
  obtain ⟨e, he⟩ : 2 ^ α ∣ d := Nat.maxPowDiv.pow_dvd 2 d
  have hepos : 0 < e := by
    rcases Nat.eq_zero_or_pos e with h0 | h0
    · rw [h0, mul_zero] at he
      omega
    · exact h0
  have he2 : ¬ 2 ∣ e := by
    intro ⟨f, hf⟩
    have : 2 ^ (α + 1) ∣ d := by
      rw [he, hf, pow_succ]
      exact ⟨f, by ring⟩
    have := Nat.maxPowDiv.le_of_dvd (by norm_num) hdpos this
    omega
  have hedvd : e ∣ 10 ^ b := by
    exact dvd_trans (Dvd.intro_left _ he.symm) hdvd
  have hcop : Nat.Coprime e (2 ^ b) :=
    (Nat.Prime.coprime_iff_not_dvd Nat.prime_two).mpr he2 |>.symm.pow_right b
  have he5 : e ∣ 5 ^ b := by
    refine hcop.dvd_of_dvd_mul_left ?_
    have h52 : (2 : ℕ) ^ b * 5 ^ b = 10 ^ b := by
      rw [← Nat.mul_pow]
    rw [h52]
    exact hedvd
  obtain ⟨γ, hγb, rfl⟩ := (Nat.dvd_prime_pow Nat.prime_five).mp he5
  have hγβ : γ ≤ β := by
    refine Nat.maxPowDiv.le_of_dvd (by norm_num) hdpos ?_
    rw [he]
    exact Dvd.intro_left _ rfl
  have hmax : d ∣ 2 ^ qDecExp q * 5 ^ qDecExp q := by
    rw [he]
    have h2 : (2 : ℕ) ^ α ∣ 2 ^ qDecExp q := pow_dvd_pow 2 (le_max_left _ _)
    have h5 : (5 : ℕ) ^ γ ∣ 5 ^ qDecExp q := pow_dvd_pow 5 (hγβ.trans (le_max_right _ _))
    exact mul_dvd_mul h2 h5
  calc d ∣ 2 ^ qDecExp q * 5 ^ qDecExp q := hmax
  _ = 10 ^ qDecExp q := by rw [← Nat.mul_pow]

/-- `str` of a finite float value reparses to exactly that value. -/
theorem _to_float_pyStrNum {q : ℚ} (hq : ∃ (a : ℤ) (b : ℕ), q = (a : ℚ) / 10 ^ b) :
    _to_float ⟨pyStrNum q⟩ = some (.num q) := by
  have hdvd : q.den ∣ 10 ^ qDecExp q := decimal_den_dvd hq
  rw [pyStrNum, _to_float_render]
  have hcmul : ((10 ^ qDecExp q / q.den : ℕ) : ℚ) * (q.den : ℚ) = (10 : ℚ) ^ qDecExp q := by
    exact_mod_cast congrArg (Nat.cast : ℕ → ℚ) (Nat.div_mul_cancel hdvd)
  have hc0 : ((10 ^ qDecExp q / q.den : ℕ) : ℚ) ≠ 0 := by
    intro h0
    rw [h0, zero_mul] at hcmul
    exact (pow_ne_zero _ (by norm_num : (10 : ℚ) ≠ 0)) hcmul.symm
  have hfinal : ((q.num * ((10 ^ qDecExp q / q.den : ℕ) : ℤ) : ℤ) : ℚ) / 10 ^ qDecExp q
      = q := by
    rw [show ((q.num * ((10 ^ qDecExp q / q.den : ℕ) : ℤ) : ℤ) : ℚ) =
        (q.num : ℚ) * ((10 ^ qDecExp q / q.den : ℕ) : ℚ) from by
      rw [Int.cast_mul, Int.cast_natCast]]
    rw [← hcmul, mul_comm ((10 ^ qDecExp q / q.den : ℕ) : ℚ) (q.den : ℚ),
      mul_div_mul_right _ _ hc0, Rat.num_div_den]
  rw [hfinal]

/-- C8 (amended): except at NaN — where Python `==` itself is irreflexive —
the normalizer is idempotent through its own string rendering: whenever
`_to_float x` is not NaN, `_to_float(str(_to_float(x))) == _to_float(x)`
holds, with `None` rendering to `"None"` which again normalizes to `None`. -/
theorem _to_float_idempotent (x : String) (h : _to_float x ≠ some PyF.nan) :
    pyEqOpt (_to_float (pyStrOpt (_to_float x))) (_to_float x) = true := by
  cases hv : _to_float x with
  | none => rfl
  | some v =>
    cases v with
    | nan => exact absurd hv h
    | inf neg => cases neg <;> rfl
    | num q =>
      have himg := _to_float_num_decimal hv
      show pyEqOpt (_to_float ⟨pyStrNum q⟩) (some (.num q)) = true
      rw [_to_float_pyStrNum himg]
      simp [pyEqOpt, pyEq]

/-- Witness for the amended C8 theorem at `x = "F.05"`. -/
theorem _to_float_idempotent_witness :
    _to_float "F.05" ≠ some PyF.nan ∧
      pyEqOpt (_to_float (pyStrOpt (_to_float "F.05"))) (_to_float "F.05") = true :=
  ⟨fun hc => by
      rw [show _to_float ("F.05") = some (.num (mantissaVal 0 5 2)) from rfl] at hc
      exact PyF.noConfusion (Option.some.inj hc),
    _to_float_idempotent "F.05" (fun hc => by
      rw [show _to_float ("F.05") = some (.num (mantissaVal 0 5 2)) from rfl] at hc
      exact PyF.noConfusion (Option.some.inj hc))⟩

end Yosou
